import Mathlib

/-! Referrer normalisation of goatcounter (`ref.go`).

A shallow embedding of `cleanRefURL` and of the parts of Go's `strings` and
`net/url` packages it calls, followed by theorems about it.

Go strings are byte sequences.  They are embedded as `List Char`, one list
element per byte (the byte `b` is the character with code `b`), so that ASCII
text reads as itself.  A panic of the Go code (an out-of-range slice) is the
result `none`.
-/

namespace Goatcounter

/-- A Go `string`: its bytes in order, each byte written as the character with that code. -/
abbrev Str := List Char

/-! ## Package `strings` -/

/-- Search `sep` in `s`, counting the bytes already passed in `n`. -/
def indexFrom (sep : Str) : Str → Nat → Int
  | [], n => if sep = [] then (n : Int) else -1
  | c :: s, n => if sep.isPrefixOf (c :: s) then (n : Int) else indexFrom sep s (n + 1)

/-- Go `strings.Index(s, sep)`: the index of the first instance of `sep` in `s`, or `-1`. -/
def stringsIndex (s sep : Str) : Int := indexFrom sep s 0

/-- Go `strings.HasPrefix(s, p)`. -/
def stringsHasPrefix (s p : Str) : Bool := p.isPrefixOf s

/-- Go `strings.HasSuffix(s, p)`. -/
def stringsHasSuffix (s p : Str) : Bool := p.isSuffixOf s

/-- Go `strings.TrimLeft(s, cutset)`: `s` without its leading bytes that are in `cutset`. -/
def stringsTrimLeft (s cutset : Str) : Str := s.dropWhile (fun c => cutset.contains c)

/-- Go `strings.Cut(s, sep)` for a one-byte separator: the text before the first `sep`,
the text after it, and whether `sep` was found. -/
def stringsCut : Str → Char → Str × Str × Bool
  | [], _ => ([], [], false)
  | c :: s, sep =>
    if c = sep then ([], s, true)
    else
      let r := stringsCut s sep
      (c :: r.1, r.2.1, r.2.2)

/-- Go slice expression `s[i:]`; out of range (a run-time panic) is `none`. -/
def sliceFrom (s : Str) (i : Int) : Option Str :=
  if 0 ≤ i ∧ i ≤ (s.length : Int) then some (s.drop i.toNat) else none

/-- Go slice expression `s[:j]`; out of range (a run-time panic) is `none`. -/
def sliceTo (s : Str) (j : Int) : Option Str :=
  if 0 ≤ j ∧ j ≤ (s.length : Int) then some (s.take j.toNat) else none

/-! ## Package `net/url`: escaping -/

/-- The `encoding` modes of `net/url`. -/
inductive Encoding where
  | encodePath
  | encodePathSegment
  | encodeHost
  | encodeZone
  | encodeUserPassword
  | encodeQueryComponent
  | encodeFragment
deriving DecidableEq, Repr

/-- Bytes that `net/url` leaves alone in a host: sub-delims, `:`, `[`, `]`, `<`, `>`
and the two quote characters (codes 39 and 34). -/
def hostAllowed : Str := "!$&()*+,;=:[]<>".toList ++ [Char.ofNat 39, Char.ofNat 34]

/-- Go `url.shouldEscape(c, mode)`. -/
def shouldEscape (c : Char) (mode : Encoding) : Bool :=
  if ('a' ≤ c ∧ c ≤ 'z') ∨ ('A' ≤ c ∧ c ≤ 'Z') ∨ ('0' ≤ c ∧ c ≤ '9') then false
  else if (mode = .encodeHost ∨ mode = .encodeZone) ∧ hostAllowed.contains c then false
  else if "-_.~".toList.contains c then false
  else if "$&+,/:;=?@".toList.contains c then
    match mode with
    | .encodePath => c == '?'
    | .encodePathSegment => c == '/' || c == ';' || c == ',' || c == '?'
    | .encodeUserPassword => c == '@' || c == '/' || c == '?' || c == ':'
    | .encodeQueryComponent => true
    | .encodeFragment => false
    | .encodeHost => true
    | .encodeZone => true
  else if mode = .encodeFragment ∧ "!()*".toList.contains c then false
  else true

/-- The table `upperhex` of `net/url`, indexed by a nibble. -/
def upperhex (n : Nat) : Char := "0123456789ABCDEF".toList.getD n '0'

/-- Go `url.escape(s, mode)`: a space becomes `+` in a query component, every other byte
that `shouldEscape` selects becomes `%XX`. -/
def escape : Str → Encoding → Str
  | [], _ => []
  | c :: s, mode =>
    if c = ' ' ∧ mode = .encodeQueryComponent then '+' :: escape s mode
    else if shouldEscape c mode then
      '%' :: upperhex (c.toNat / 16) :: upperhex (c.toNat % 16) :: escape s mode
    else c :: escape s mode

/-- Go `url.QueryEscape`. -/
def QueryEscape (s : Str) : Str := escape s .encodeQueryComponent

/-- Go `url.ishex`. -/
def ishex (c : Char) : Bool :=
  ('0' ≤ c ∧ c ≤ '9') ∨ ('a' ≤ c ∧ c ≤ 'f') ∨ ('A' ≤ c ∧ c ≤ 'F')

/-- Go `url.unhex`. -/
def unhex (c : Char) : Nat :=
  if '0' ≤ c ∧ c ≤ '9' then c.toNat - '0'.toNat
  else if 'a' ≤ c ∧ c ≤ 'f' then c.toNat - 'a'.toNat + 10
  else if 'A' ≤ c ∧ c ≤ 'F' then c.toNat - 'A'.toNat + 10
  else 0

/-- Go `url.unescape(s, mode)`; an error result is `none`.  The checks and the rewriting,
two passes in Go, are done in one pass here. -/
def unescape : Str → Encoding → Option Str
  | [], _ => some []
  | c :: s, mode =>
    if c = '%' then
      match s with
      | a :: b :: t =>
        if ¬ (ishex a ∧ ishex b) then none
        else if mode = .encodeHost ∧ unhex a < 8 ∧ [a, b] ≠ "25".toList then none
        else if mode = .encodeZone ∧ [a, b] ≠ "25".toList
            ∧ Char.ofNat (unhex a * 16 + unhex b) ≠ ' '
            ∧ shouldEscape (Char.ofNat (unhex a * 16 + unhex b)) .encodeHost then none
        else (unescape t mode).map (fun r => Char.ofNat (unhex a * 16 + unhex b) :: r)
      | _ => none
    else if c = '+' then
      (unescape s mode).map (fun r => (if mode = .encodeQueryComponent then ' ' else '+') :: r)
    else if (mode = .encodeHost ∨ mode = .encodeZone) ∧ c.toNat < 128
        ∧ shouldEscape c .encodeHost then none
    else (unescape s mode).map (fun r => c :: r)

/-- Go `url.QueryUnescape`. -/
def QueryUnescape (s : Str) : Option Str := unescape s .encodeQueryComponent

/-- Go `url.validEncoded(s, mode)`. -/
def validEncoded (s : Str) (mode : Encoding) : Bool :=
  s.all fun c =>
    if "!$&()*+,;=:@".toList.contains c ∨ c = Char.ofNat 39 then true
    else if c = '[' ∨ c = ']' then true
    else if c = '%' then true
    else !shouldEscape c mode

/-! ## Package `net/url`: the `URL` type -/

/-- Go `url.Userinfo`. -/
structure Userinfo where
  username : Str
  password : Str
  passwordSet : Bool
deriving DecidableEq, Repr

/-- Go `(*Userinfo).String` for a non-nil receiver. -/
def Userinfo.String (ui : Userinfo) : Str :=
  let s := escape ui.username .encodeUserPassword
  if ui.passwordSet then s ++ ":".toList ++ escape ui.password .encodeUserPassword else s

/-- Go `url.URL`; `User = none` is the nil pointer. -/
structure URL where
  Scheme : Str := []
  Opaque : Str := []
  User : Option Userinfo := none
  Host : Str := []
  Path : Str := []
  RawPath : Str := []
  OmitHost : Bool := false
  ForceQuery : Bool := false
  RawQuery : Str := []
  Fragment : Str := []
  RawFragment : Str := []
deriving DecidableEq, Repr

/-- Go `(*URL).EscapedPath`. -/
def URL.EscapedPath (u : URL) : Str :=
  if u.RawPath ≠ [] ∧ validEncoded u.RawPath .encodePath
      ∧ unescape u.RawPath .encodePath = some u.Path then u.RawPath
  else if u.Path = "*".toList then "*".toList
  else escape u.Path .encodePath

/-- Go `(*URL).EscapedFragment`. -/
def URL.EscapedFragment (u : URL) : Str :=
  if u.RawFragment ≠ [] ∧ validEncoded u.RawFragment .encodeFragment
      ∧ unescape u.RawFragment .encodeFragment = some u.Fragment then u.RawFragment
  else escape u.Fragment .encodeFragment

/-- The part of Go `(*URL).String` that writes scheme, authority and path into the buffer. -/
def URL.hierPart (u : URL) : Str :=
  let buf : Str := if u.Scheme ≠ [] then u.Scheme ++ ":".toList else []
  if u.Opaque ≠ [] then buf ++ u.Opaque
  else
    let buf :=
      if u.Scheme ≠ [] ∨ u.Host ≠ [] ∨ u.User.isSome then
        if u.OmitHost ∧ u.Host = [] ∧ u.User.isNone then buf
        else
          let buf := if u.Host ≠ [] ∨ u.Path ≠ [] ∨ u.User.isSome then buf ++ "//".toList else buf
          let buf := match u.User with
            | some ui => buf ++ ui.String ++ "@".toList
            | none => buf
          if u.Host ≠ [] then buf ++ escape u.Host .encodeHost else buf
      else buf
    let path := u.EscapedPath
    let buf := if path ≠ [] ∧ path.head? ≠ some '/' ∧ u.Host ≠ [] then buf ++ "/".toList else buf
    let buf :=
      if buf = [] ∧ (stringsCut path '/').1.contains ':' then buf ++ "./".toList else buf
    buf ++ path

/-- Go `(*URL).String`. -/
def URL.String (u : URL) : Str :=
  let buf := u.hierPart
  let buf := if u.ForceQuery ∨ u.RawQuery ≠ [] then buf ++ "?".toList ++ u.RawQuery else buf
  if u.Fragment ≠ [] then buf ++ "#".toList ++ u.EscapedFragment else buf

/-! ## Package `net/url`: query values -/

/-- Go `url.Values`, a `map[string][]string`, as an association list without repeated keys. -/
abbrev Values := List (Str × List Str)

/-- Go `m[key] = append(m[key], value)`. -/
def Values.append : Values → Str → Str → Values
  | [], key, value => [(key, [value])]
  | e :: m, key, value =>
    if e.1 = key then (e.1, e.2 ++ [value]) :: m else e :: Values.append m key value

/-- Go `Values.Del(key)`. -/
def Values.Del (m : Values) (key : Str) : Values := m.filter (fun e => e.1 ≠ key)

/-- Go `Values.Get(key)` when the key is present: the values stored under `key`. -/
def Values.find (m : Values) (key : Str) : Option (List Str) := m.lookup key

/-- The pieces of `s` between the occurrences of the byte `sep`. -/
def splitByte : Str → Char → List Str
  | [], _ => [[]]
  | c :: s, sep =>
    if c = sep then [] :: splitByte s sep
    else
      match splitByte s sep with
      | [] => [[c]]
      | h :: t => (c :: h) :: t

/-- One turn of the loop of Go `url.parseQuery`, on the piece `key` cut off at `&`. -/
def parseQueryStep (m : Values) (key : Str) : Values :=
  if key.contains ';' then m
  else if key = [] then m
  else
    let kv := stringsCut key '='
    match QueryUnescape kv.1 with
    | none => m
    | some k =>
      match QueryUnescape kv.2.1 with
      | none => m
      | some v => Values.append m k v

/-- Go `url.ParseQuery(query)`, the error dropped: the loop
`for query != "" { key, query, _ = strings.Cut(query, "&"); ... }` visits the pieces of
`query` between `&` in order (a last empty piece is skipped like any empty piece). -/
def ParseQuery (query : Str) : Values := (splitByte query '&').foldl parseQueryStep []

/-- Go `(*URL).Query`. -/
def URL.Query (u : URL) : Values := ParseQuery u.RawQuery

/-! ## `ref.go` -/

/-- The map `groups` of `ref.go`. -/
def groups : List (Str × Str) := [
  ("news.ycombinator.com".toList, "Hacker News".toList),
  ("hn.algolia.com".toList, "Hacker News".toList),
  ("hckrnews.com".toList, "Hacker News".toList),
  ("hn.premii.com".toList, "Hacker News".toList),
  ("com.stefandekanski.hackernews.free".toList, "Hacker News".toList),
  ("io.github.hidroh.materialistic".toList, "Hacker News".toList),
  ("hackerweb.app".toList, "Hacker News".toList),
  ("www.daemonology.net/hn-daily".toList, "Hacker News".toList),
  ("quiethn.com".toList, "Hacker News".toList),
  ("hnews.xyz".toList, "Hacker News".toList),
  ("hackernewsmobile.com".toList, "Hacker News".toList),
  ("mail.google.com".toList, "Email".toList),
  ("com.google.android.gm".toList, "Email".toList),
  ("mail.yahoo.com".toList, "Email".toList),
  ("org.fox.ttrss".toList, "RSS".toList),
  ("www.inoreader.com".toList, "RSS".toList),
  ("com.innologica.inoreader".toList, "RSS".toList),
  ("usepanda.com".toList, "RSS".toList),
  ("feedly.com".toList, "RSS".toList),
  ("com.google.android.googlequicksearchbox".toList, "Google".toList),
  ("com.google.android.googlequicksearchbox/https/www.google.com".toList, "Google".toList),
  ("com.andrewshu.android.reddit".toList, "www.reddit.com".toList),
  ("com.laurencedawson.reddit_sync".toList, "www.reddit.com".toList),
  ("com.laurencedawson.reddit_sync.dev".toList, "www.reddit.com".toList),
  ("com.laurencedawson.reddit_sync.pro".toList, "www.reddit.com".toList),
  ("m.facebook.com".toList, "www.facebook.com".toList),
  ("l.facebook.com".toList, "www.facebook.com".toList),
  ("lm.facebook.com".toList, "www.facebook.com".toList),
  ("org.telegram.messenger".toList, "Telegram Messenger".toList),
  ("com.Slack".toList, "Slack Chat".toList)]

/-- The map `hostAlias` of `ref.go`. -/
def hostAlias : List (Str × Str) := [
  ("en.m.wikipedia.org".toList, "en.wikipedia.org".toList),
  ("m.facebook.com".toList, "www.facebook.com".toList),
  ("m.habr.com".toList, "habr.com".toList),
  ("old.reddit.com".toList, "www.reddit.com".toList),
  ("i.reddit.com".toList, "www.reddit.com".toList),
  ("np.reddit.com".toList, "www.reddit.com".toList),
  ("fr.reddit.com".toList, "www.reddit.com".toList)]

/-- What a stretch of `cleanRefURL` ends in: a `return` (with the URL object as the
stretch left it), a run-time panic, or falling through to the next statement with the
current values of `ref` and `refURL`. -/
inductive Step where
  | ret (name : Str) (isGroup : Bool) (refURL : URL)
  | panic
  | cont (ref : Str) (refURL : URL)
deriving DecidableEq, Repr

/-- Lines 88-90 of `ref.go`: when `p := strings.Index(ref, ":")` has `p > -1 && p < 7`,
`ref = ref[p+3:]`. -/
def stripScheme (ref : Str) : Option Str :=
  let p := stringsIndex ref ":".toList
  if p > -1 ∧ p < 7 then sliceFrom ref (p + 3) else some ref

/-- Lines 93-95 of `ref.go`: the host after `hostAlias`. -/
def aliasHost (host : Str) : Str :=
  match hostAlias.lookup host with
  | some a => a
  | none => host

/-- Lines 123-130 of `ref.go`: the `switch` on the path of a `www.reddit.com` URL. -/
def redditPath (path : Str) : Option Str :=
  if stringsHasSuffix path "/top".toList ∨ stringsHasSuffix path "/new".toList then
    sliceTo path ((path.length : Int) - 4)
  else if stringsHasSuffix path "/search".toList then
    sliceTo path ((path.length : Int) - 7)
  else if stringsHasSuffix path ".compact".toList then
    sliceTo path ((path.length : Int) - 8)
  else some path

/-- Lines 82-138 of `ref.go`, in `cleanRefURL`: every rule before "Clean query parameters". -/
def specialRules (ref : Str) (refURL : URL) : Step :=
  if refURL.Host = "link.oreilly.com".toList then
    .ret "link.oreilly.com".toList false refURL
  else
    let refURL := { refURL with Scheme := [] }
    match stripScheme ref with
    | none => .panic
    | some ref =>
      let refURL := { refURL with Host := aliasHost refURL.Host }
      if stringsHasPrefix refURL.Host "www.google.".toList then
        .ret "Google".toList true refURL
      else
        match groups.lookup refURL.Host with
        | some g => .ret g true refURL
        | none =>
          if refURL.Host = "lobste.rs".toList
              ∧ ¬ stringsHasPrefix refURL.Path "/s/".toList then
            .ret "lobste.rs".toList false refURL
          else if refURL.Host = "gambe.ro".toList
              ∧ ¬ stringsHasPrefix refURL.Path "/s/".toList then
            .ret "lobste.rs".toList false refURL
          else
            match (if refURL.Host = "www.reddit.com".toList then redditPath refURL.Path
                   else some refURL.Path) with
            | none => .panic
            | some path =>
              let refURL := { refURL with Path := path }
              if refURL.Host = "t.co".toList then
                .ret ("twitter.com/search?q=https%3A%2F%2Ft.co".toList
                  ++ QueryEscape refURL.Path) false refURL
              else .cont ref refURL

/-- The four `q.Del` calls of `ref.go` lines 151-154. -/
def delTracking (q : Values) : Values :=
  Values.Del (Values.Del (Values.Del (Values.Del q "utm_source".toList)
    "utm_medium".toList) "utm_campaign".toList) "utm_term".toList

/-- Lines 141-159 of `ref.go`, in `cleanRefURL`: "Clean query parameters". -/
def genericFallback (ref : Str) (refURL : URL) : Option (Str × Bool × URL) :=
  let i := stringsIndex ref "?".toList
  if i = -1 then
    some (stringsTrimLeft refURL.String "/".toList, false, refURL)
  else
    let q := refURL.Query
    let refURL := { refURL with RawQuery := [] }
    let q := delTracking q
    if q.length = 0 then
      (sliceFrom refURL.String 2).map (fun name => (name, false, refURL))
    else
      (sliceFrom refURL.String 2).map (fun name => (name, false, refURL))

/-- The function `cleanRefURL` of `ref.go`: the returned pair together with the URL object `refURL`
points to after the call; `none` is a run-time panic. -/
def cleanRefURL (ref : Str) (refURL : URL) : Option (Str × Bool × URL) :=
  match specialRules ref refURL with
  | .ret name isGroup refURL => some (name, isGroup, refURL)
  | .panic => none
  | .cont ref refURL => genericFallback ref refURL

/-- The pair `(name, isGroup)` a call returned. -/
def returned (r : Option (Str × Bool × URL)) : Option (Str × Bool) :=
  r.map (fun x => (x.1, x.2.1))

/-! ## The reports of `ref.go` -/

/-- Go `int` arithmetic (64-bit): the two's-complement value of the integer `x`. -/
def wrapInt (x : Int) : Int := (x + 2 ^ 63) % 2 ^ 64 - 2 ^ 63

/-- Modelled from the spec: the row type of the reports (`StatRow`: count, count_unique,
ref_scheme, name), whose declaration is not in `ref.go`; it is the element type of the
field `Stats` that the two reports fill. -/
structure Stat where
  Count : Int
  CountUnique : Int
  RefScheme : Option Str
  Name : Str
deriving DecidableEq, Repr

/-- Modelled from the spec: the receiver type `Stats` of the two reports, whose declaration
is not in `ref.go`; `ref.go` assigns its fields `More` and `Stats`. -/
structure Stats where
  More : Bool
  Stats : List Stat
deriving DecidableEq, Repr

/-- Modelled from the spec: the per-site row limits `Ref` and `Hchart` (Go `int`), read by
`ref.go` as `site.Settings.Limits`; the declaration is not in `ref.go`. -/
structure Limits where
  Ref : Int
  Hchart : Int
deriving DecidableEq, Repr

/-- Modelled from the spec: the site settings, of which `ref.go` reads `Limits`. -/
structure SiteSettings where
  Limits : Limits
deriving DecidableEq, Repr

/-- Modelled from the spec: the site, of which `ref.go` reads `ID`, `Settings` and
`LinkDomain`; the declaration is not in `ref.go`. -/
structure Site where
  ID : Int
  Settings : SiteSettings
  LinkDomain : Str
deriving DecidableEq, Repr

/-- The columns named in the `order by` clauses of `ref.go`. -/
inductive Column where
  | countUnique
  | ref
deriving DecidableEq, Repr

/-- The SQL statement and arguments that a report hands to `SelectContext`: its leading
comment, the `where` arguments, the `order by` columns (each `desc`), and the `limit` and
`offset` arguments. -/
structure Select where
  comment : Str
  site : Int
  path : Option Str
  hourFrom : Str
  hourTo : Str
  refNotLike : Option Str
  orderBy : List Column
  limit : Int
  offset : Int
deriving DecidableEq, Repr

/-- The database behind `zdb.MustGet(ctx)`: for a statement, the rows that `SelectContext`
scans, which it appends to the destination slice after the rows already there, and the
error it returns (`none` is `nil`). -/
abbrev DB := Select → List Stat × Option Str

/-- Go `errors.Wrap(err, msg)`: `nil` for a `nil` error, else the error with `msg` in front. -/
def errorsWrap (err : Option Str) (msg : Str) : Option Str :=
  err.map (fun e => msg ++ ": ".toList ++ e)

/-- Go slice expression `s[:j]` on a slice of rows; out of range (a panic) is `none`. -/
def sliceRowsTo (s : List Stat) (j : Int) : Option (List Stat) :=
  if 0 ≤ j ∧ j ≤ (s.length : Int) then some (s.take j.toNat) else none

/-- Lines 166-169 of `ref.go`: the effective limit of `ListRefsByPath`. -/
def limitRef (site : Site) : Int :=
  if site.Settings.Limits.Ref = 0 then 10 else site.Settings.Limits.Ref

/-- Lines 204-207 of `ref.go`: the effective limit of `ListTopRefs`. -/
def limitHchart (site : Site) : Int :=
  if site.Settings.Limits.Hchart = 0 then 6 else site.Settings.Limits.Hchart

/-- Lines 171-186 of `ref.go`: the statement of `ListRefsByPath`; `start` and `stop` stand
for `start.Format(zdb.Date)` and `end.Format(zdb.Date)`. -/
def refsByPathSelect (site : Site) (path start stop : Str) (offset : Int) : Select :=
  { comment := "Stats.ListRefsByPath".toList
    site := site.ID
    path := some path
    hourFrom := start
    hourTo := stop
    refNotLike := none
    orderBy := [.countUnique, .ref]
    limit := wrapInt (limitRef site + 1)
    offset := offset }

/-- Lines 209-227 of `ref.go`: the statement of `ListTopRefs`. -/
def topRefsSelect (site : Site) (start stop : Str) (offset : Int) : Select :=
  { comment := "Stats.ListTopRefs".toList
    site := site.ID
    path := none
    hourFrom := start
    hourTo := stop
    refNotLike := if site.LinkDomain ≠ [] then some (site.LinkDomain ++ "%".toList) else none
    orderBy := [.countUnique]
    limit := wrapInt (limitHchart site + 1)
    offset := offset }

/-- Lines 188-191 and 232-235 of `ref.go` (the same statements):
`if len(h.Stats) > limit`, set `h.More = true` and drop the last row. -/
def trimMore (h : Stats) (limit : Int) : Option Stats :=
  if (h.Stats.length : Int) > limit then
    (sliceRowsTo h.Stats ((h.Stats.length : Int) - 1)).map
      (fun rows => { More := true, Stats := rows })
  else some h

/-- The method `(*Stats).ListRefsByPath` of `ref.go`: the receiver after the call and the
returned error; `none` is a run-time panic.  `SelectContext` is handed `&h.Stats` and
appends the selected rows to the rows the receiver already holds. -/
def ListRefsByPath (db : DB) (site : Site) (h : Stats) (path start stop : Str)
    (offset : Int) : Option (Stats × Option Str) :=
  let limit := limitRef site
  let res := db (refsByPathSelect site path start stop offset)
  let h : Stats := { h with Stats := h.Stats ++ res.1 }
  (trimMore h limit).map (fun h => (h, errorsWrap res.2 "Stats.ListRefsByPath".toList))

/-- The method `(*Stats).ListTopRefs` of `ref.go`: the receiver after the call and the
returned error; `none` is a run-time panic.  `SelectContext` is handed `&h.Stats` and
appends the selected rows to the rows the receiver already holds. -/
def ListTopRefs (db : DB) (site : Site) (h : Stats) (start stop : Str)
    (offset : Int) : Option (Stats × Option Str) :=
  let limit := limitHchart site
  let res := db (topRefsSelect site start stop offset)
  let h : Stats := { h with Stats := h.Stats ++ res.1 }
  match res.2 with
  | some e => some (h, errorsWrap (some e) "Stats.ListAllRefs".toList)
  | none => (trimMore h limit).map (fun h => (h, none))

/-- The order that an `order by` clause with the columns `cols`, each `desc`, asks of two
rows `a` (earlier) and `b` (later); `nameLt` is the collation order of the column `ref`. -/
def rowsInOrder (nameLt : Str → Str → Prop) : List Column → Stat → Stat → Prop
  | [], _, _ => True
  | .countUnique :: cols, a, b =>
    b.CountUnique < a.CountUnique
      ∨ (a.CountUnique = b.CountUnique ∧ rowsInOrder nameLt cols a b)
  | .ref :: cols, a, b =>
    nameLt b.Name a.Name ∨ (a.Name = b.Name ∧ rowsInOrder nameLt cols a b)

/-! ## Notions used to state the properties -/

/-- The slice `ref[p+3:]` of `ref.go` line 89 is in range whenever it is taken: a `:`
found at an index below 7 has at least two more bytes after it.  This holds for every
referrer of the form `scheme://...`. -/
def sliceInRange (ref : Str) : Prop :=
  (-1 < stringsIndex ref ":".toList ∧ stringsIndex ref ":".toList < 7) →
    stringsIndex ref ":".toList + 3 ≤ (ref.length : Int)

instance (ref : Str) : Decidable (sliceInRange ref) := by
  unfold sliceInRange; infer_instance

/-- The path suffixes that `cleanRefURL` removes from a `www.reddit.com` path. -/
def redditSuffixes : List Str :=
  ["/top".toList, "/new".toList, "/search".toList, ".compact".toList]

/-- The query component of a URL reference, as Go `url.Parse` finds it: the fragment is
cut off at the first `#`, then the query is what follows the first `?`. -/
def queryComponent (s : Str) : Str := (stringsCut (stringsCut s '#').1 '?').2.1

/-- The URL object after lines 87-95 of `ref.go`: scheme cleared, host replaced by its
alias. -/
def aliasedURL (u : URL) : URL := { u with Scheme := [], Host := aliasHost u.Host }

/-- The path after lines 122-131 of `ref.go`: on `www.reddit.com` without the suffix that
the `switch` removes, else unchanged. -/
def strippedPath (host path : Str) : Str :=
  if host = "www.reddit.com".toList then (redditPath path).getD path else path

/-- The URL object when `cleanRefURL` reaches "Clean query parameters": scheme cleared,
host replaced by its alias, path stripped on `www.reddit.com`. -/
def normalURL (u : URL) : URL :=
  { aliasedURL u with Path := strippedPath (aliasHost u.Host) u.Path }

/-- Example rows: `n` rows named `ref0`, `ref1`, ... with falling `count_unique`. -/
def exampleRows (n : Nat) : List Stat :=
  (List.range n).map (fun (i : Nat) =>
    { Count := 2 * ((n : Int) - (i : Int)), CountUnique := (n : Int) - (i : Int),
      RefScheme := some "h".toList, Name := "ref".toList ++ [Char.ofNat (48 + i)] })

/-- Example database: every statement selects `exampleRows n`, without error. -/
def exampleDB (n : Nat) : DB := fun _ => (exampleRows n, none)

/-- Example site with the given limits. -/
def exampleSite (ref hchart : Int) : Site :=
  { ID := 1, Settings := { Limits := { Ref := ref, Hchart := hchart } }, LinkDomain := [] }

instance rowsInOrderDecidable (nameLt : Str → Str → Prop) [DecidableRel nameLt]
    (cols : List Column) (a b : Stat) : Decidable (rowsInOrder nameLt cols a b) := by
  induction cols with
  | nil => exact isTrue trivial
  | cons c cols ih =>
    cases c
    · unfold rowsInOrder; exact inferInstance
    · unfold rowsInOrder; exact inferInstance

/-- Example rows with a tie on `count_unique`, in the order of
`order by count_unique desc, ref desc`. -/
def exampleTieRows : List Stat :=
  [{ Count := 9, CountUnique := 5, RefScheme := none, Name := "z-host".toList },
   { Count := 7, CountUnique := 5, RefScheme := none, Name := "a-host".toList },
   { Count := 3, CountUnique := 3, RefScheme := none, Name := "m-host".toList }]

/-! ## Lemmas on `strings` -/

theorem indexFrom_not_mem (c : Char) (s : Str) (n : Nat) (h : c ∉ s) :
    indexFrom [c] s n = -1 := by
  induction s generalizing n with
  | nil => simp [indexFrom]
  | cons d s ih =>
    simp only [List.mem_cons, not_or] at h
    unfold indexFrom
    have : List.isPrefixOf [c] (d :: s) = false := by
      simp [List.isPrefixOf, h.1]
    simp [this, ih _ h.2]

theorem stripScheme_of_inRange (ref : Str) (h : sliceInRange ref) :
    ∃ r, stripScheme ref = some r ∧ ∀ c, c ∉ ref → c ∉ r := by
  unfold stripScheme
  simp only []
  by_cases hp : stringsIndex ref ":".toList > -1 ∧ stringsIndex ref ":".toList < 7
  · rw [if_pos hp]
    have h3 := h ⟨hp.1, hp.2⟩
    unfold sliceFrom
    rw [if_pos ⟨by omega, h3⟩]
    exact ⟨_, rfl, fun c hc hm => hc (List.mem_of_mem_drop hm)⟩
  · rw [if_neg hp]
    exact ⟨_, rfl, fun c hc => hc⟩

theorem sliceTo_append (a b : Str) (n : Nat) (hn : b.length = n) :
    sliceTo (a ++ b) (((a ++ b).length : Int) - n) = some a := by
  unfold sliceTo
  have hlen : (((a ++ b).length : Int) - n) = (a.length : Int) := by
    simp [List.length_append, hn]
  rw [hlen]
  simp

theorem not_suffix_append (a b p : Str) (hlen : p.length ≤ b.length)
    (hb : stringsHasSuffix b p = false) : stringsHasSuffix (a ++ b) p = false := by
  unfold stringsHasSuffix at *
  rw [Bool.eq_false_iff] at *
  intro h
  apply hb
  rw [List.isSuffixOf_iff_suffix] at *
  exact List.suffix_of_suffix_length_le h (List.suffix_append a b) hlen

theorem suffix_append_self (a b : Str) : stringsHasSuffix (a ++ b) b = true := by
  unfold stringsHasSuffix
  rw [List.isSuffixOf_iff_suffix]
  exact List.suffix_append a b

theorem stringsCut_not_mem (s : Str) (sep : Char) (h : sep ∉ s) :
    stringsCut s sep = (s, [], false) := by
  induction s with
  | nil => rfl
  | cons c s ih =>
    simp only [List.mem_cons, not_or] at h
    rw [stringsCut, if_neg (fun hh => h.1 hh.symm), ih h.2]

theorem stringsCut_append (a b : Str) (sep : Char) (h : sep ∉ a) :
    stringsCut (a ++ sep :: b) sep = (a, b, true) := by
  induction a with
  | nil => simp [stringsCut]
  | cons c a ih =>
    simp only [List.mem_cons, not_or] at h
    rw [List.cons_append, stringsCut, if_neg (fun hh => h.1 hh.symm), ih h.2]

theorem splitByte_not_mem (s : Str) (sep : Char) (h : sep ∉ s) : splitByte s sep = [s] := by
  induction s with
  | nil => rfl
  | cons c s ih =>
    simp only [List.mem_cons, not_or] at h
    rw [splitByte, if_neg (fun hh => h.1 hh.symm), ih h.2]

/-! ## Lemmas on escaping -/

theorem unescape_query_cons (c : Char) (s : Str) (h1 : c ≠ '%') (h2 : c ≠ '+') :
    unescape (c :: s) .encodeQueryComponent
      = (unescape s .encodeQueryComponent).map (fun r => c :: r) := by
  rcases s with _ | ⟨a, _ | ⟨b, t⟩⟩ <;> simp [unescape, h1, h2]

theorem unescape_query_plus (s : Str) :
    unescape ('+' :: s) .encodeQueryComponent
      = (unescape s .encodeQueryComponent).map (fun r => ' ' :: r) := by
  rcases s with _ | ⟨a, _ | ⟨b, t⟩⟩ <;> simp [unescape]

theorem unescape_query_pct (a b : Char) (s : Str) (ha : ishex a = true) (hb : ishex b = true) :
    unescape ('%' :: a :: b :: s) .encodeQueryComponent
      = (unescape s .encodeQueryComponent).map
          (fun r => Char.ofNat (unhex a * 16 + unhex b) :: r) := by
  simp [unescape, ha, hb]

theorem upperhex_ishex : ∀ k, k < 16 → ishex (upperhex k) = true := by decide

theorem unhex_upperhex : ∀ k, k < 16 → unhex (upperhex k) = k := by decide

theorem upperhex_range (k : Nat) : ∃ j, j < 16 ∧ upperhex k = upperhex j := by
  by_cases h : k < 16
  · exact ⟨k, h, rfl⟩
  · refine ⟨0, by decide, ?_⟩
    unfold upperhex
    rw [List.getD_eq_default _ _ (by simpa using h)]
    rfl

/-- Decoding an encoded query component gives back the bytes that were encoded. -/
theorem unescape_escape (s : Str) (h : ∀ c ∈ s, c.toNat < 256) :
    unescape (escape s .encodeQueryComponent) .encodeQueryComponent = some s := by
  induction s with
  | nil => rfl
  | cons c s ih =>
    have hc : c.toNat < 256 := h c (List.mem_cons_self _ _)
    have ih := ih (fun d hd => h d (List.mem_cons_of_mem _ hd))
    unfold escape
    by_cases hsp : c = ' '
    · subst hsp
      simp only [true_and, ↓reduceIte]
      rw [unescape_query_plus, ih]; rfl
    · rw [if_neg (fun hh => hsp hh.1)]
      by_cases hes : shouldEscape c .encodeQueryComponent = true
      · rw [if_pos hes]
        have hhi : c.toNat / 16 < 16 := by omega
        have hlo : c.toNat % 16 < 16 := by omega
        rw [unescape_query_pct _ _ _ (upperhex_ishex _ hhi) (upperhex_ishex _ hlo), ih,
          unhex_upperhex _ hhi, unhex_upperhex _ hlo]
        have : c.toNat / 16 * 16 + c.toNat % 16 = c.toNat := by omega
        rw [this]
        simp
      · rw [if_neg hes]
        have h1 : c ≠ '%' := fun hh => hes (hh ▸ (by decide))
        have h2 : c ≠ '+' := fun hh => hes (hh ▸ (by decide))
        rw [unescape_query_cons _ _ h1 h2, ih]; rfl

theorem escape_append (a b : Str) (mode : Encoding) :
    escape (a ++ b) mode = escape a mode ++ escape b mode := by
  induction a with
  | nil => rfl
  | cons c a ih =>
    show escape (c :: (a ++ b)) mode = _
    rw [escape, escape, ih]
    split
    · simp
    · split <;> simp

theorem mem_escape (x : Char) (s : Str) (mode : Encoding) (h : x ∈ escape s mode) :
    x = '+' ∨ x = '%' ∨ (∃ k, k < 16 ∧ x = upperhex k) ∨ shouldEscape x mode = false := by
  induction s with
  | nil => simp [escape] at h
  | cons c s ih =>
    unfold escape at h
    split at h
    · rcases List.mem_cons.1 h with h | h
      · exact Or.inl h
      · exact ih h
    · split at h
      · simp only [List.mem_cons] at h
        rcases h with h | h | h | h
        · exact Or.inr (Or.inl h)
        · obtain ⟨j, hj, he⟩ := upperhex_range (c.toNat / 16)
          exact Or.inr (Or.inr (Or.inl ⟨j, hj, h.trans he⟩))
        · obtain ⟨j, hj, he⟩ := upperhex_range (c.toNat % 16)
          exact Or.inr (Or.inr (Or.inl ⟨j, hj, h.trans he⟩))
        · exact ih h
      · rename_i hne
        rcases List.mem_cons.1 h with h | h
        · subst h
          right; right; right
          simpa using hne
        · exact ih h

/-- A byte that mode `mode` escapes, other than `+`, `%` and the hexadecimal digits,
does not occur in a string escaped in that mode. -/
theorem not_mem_escape (x : Char) (s : Str) (mode : Encoding)
    (h1 : x ≠ '+') (h2 : x ≠ '%') (h3 : ∀ k, k < 16 → x ≠ upperhex k)
    (h4 : shouldEscape x mode = true) : x ∉ escape s mode := by
  intro h
  rcases mem_escape x s mode h with h | h | ⟨k, hk, h⟩ | h
  · exact h1 h
  · exact h2 h
  · exact h3 k hk h
  · rw [h4] at h; exact absurd h (by decide)

/-! ## Lemmas on `cleanRefURL` -/

theorem redditPath_append (S suf : Str) (h : suf ∈ redditSuffixes) :
    redditPath (S ++ suf) = some S := by
  simp only [redditSuffixes, List.mem_cons, List.mem_singleton, List.not_mem_nil, or_false] at h
  unfold redditPath
  rcases h with rfl | rfl | rfl | rfl
  · rw [if_pos (Or.inl (suffix_append_self _ _))]
    exact sliceTo_append S _ 4 rfl
  · rw [if_pos (Or.inr (suffix_append_self _ _))]
    exact sliceTo_append S _ 4 rfl
  · rw [if_neg, if_pos (suffix_append_self _ _)]
    · exact sliceTo_append S _ 7 rfl
    · rw [not_suffix_append S _ "/top".toList (by decide) (by decide),
        not_suffix_append S _ "/new".toList (by decide) (by decide)]
      simp
  · rw [if_neg, if_neg, if_pos (suffix_append_self _ _)]
    · exact sliceTo_append S _ 8 rfl
    · rw [not_suffix_append S _ "/search".toList (by decide) (by decide)]
      simp
    · rw [not_suffix_append S _ "/top".toList (by decide) (by decide),
        not_suffix_append S _ "/new".toList (by decide) (by decide)]
      simp

/-- A host that is not `link.oreilly.com`, whose alias does not start with `www.google.`
and is a key of `groups`, is reported as that group. -/
theorem cleanRefURL_of_group (ref : Str) (refURL : URL) (g : Str)
    (hslice : sliceInRange ref)
    (hne : refURL.Host ≠ "link.oreilly.com".toList)
    (hgoogle : stringsHasPrefix (aliasHost refURL.Host) "www.google.".toList = false)
    (hg : groups.lookup (aliasHost refURL.Host) = some g) :
    returned (cleanRefURL ref refURL) = some (g, true) := by
  obtain ⟨r, hr, -⟩ := stripScheme_of_inRange ref hslice
  simp only [cleanRefURL, specialRules, hne, hr, hgoogle, hg, returned, ↓reduceIte,
    Option.map_some', Bool.false_eq_true]

/-- Every key of `groups` other than `m.facebook.com` is reported as its group. -/
theorem cleanRefURL_group_key (ref : Str) (refURL : URL) (k g : Str)
    (hslice : sliceInRange ref) (hkey : (k, g) ∈ groups)
    (hk : k ≠ "m.facebook.com".toList) (hhost : refURL.Host = k) :
    returned (cleanRefURL ref refURL) = some (g, true) := by
  have hall : ∀ e ∈ groups, e.1 ≠ "m.facebook.com".toList →
      e.1 ≠ "link.oreilly.com".toList
        ∧ stringsHasPrefix (aliasHost e.1) "www.google.".toList = false
        ∧ groups.lookup (aliasHost e.1) = some e.2 := by decide
  obtain ⟨h1, h2, h3⟩ := hall (k, g) hkey hk
  subst hhost
  exact cleanRefURL_of_group ref refURL g hslice h1 h2 h3

theorem not_mem_escape_delim (x : Char) (hx : x = '?' ∨ x = '#') (s : Str) (mode : Encoding)
    (hm : mode = .encodeHost ∨ mode = .encodeUserPassword ∨ mode = .encodePath) :
    x ∉ escape s mode := by
  rcases hx with rfl | rfl <;> rcases hm with rfl | rfl | rfl <;>
    exact not_mem_escape _ _ _ (by decide) (by decide) (by decide) (by decide)

theorem not_mem_validEncoded_path (x : Char) (hx : x = '?' ∨ x = '#') (s : Str)
    (h : validEncoded s .encodePath = true) : x ∉ s := by
  intro hm
  unfold validEncoded at h
  have := List.all_eq_true.1 h x hm
  rcases hx with rfl | rfl <;> exact absurd this (by decide)

theorem not_mem_EscapedPath (x : Char) (hx : x = '?' ∨ x = '#') (u : URL) :
    x ∉ u.EscapedPath := by
  unfold URL.EscapedPath
  split
  · rename_i h
    exact not_mem_validEncoded_path x hx _ h.2.1
  · split
    · rcases hx with rfl | rfl <;> decide
    · exact not_mem_escape_delim x hx _ _ (Or.inr (Or.inr rfl))

theorem not_mem_Userinfo_String (x : Char) (hx : x = '?' ∨ x = '#') (ui : Userinfo) :
    x ∉ ui.String := by
  unfold Userinfo.String
  simp only []
  split
  · intro h
    rcases List.mem_append.1 h with h | h
    · rcases List.mem_append.1 h with h | h
      · exact not_mem_escape_delim x hx _ _ (Or.inr (Or.inl rfl)) h
      · rcases hx with rfl | rfl <;> exact absurd h (by decide)
    · exact not_mem_escape_delim x hx _ _ (Or.inr (Or.inl rfl)) h
  · exact not_mem_escape_delim x hx _ _ (Or.inr (Or.inl rfl))

/-- With the scheme cleared, no opaque part and a host, the string form starts with `//`
and has neither `?` nor `#` before its query. -/
theorem hierPart_of_host (u : URL) (hS : u.Scheme = []) (hO : u.Opaque = [])
    (hH : u.Host ≠ []) :
    ∃ X, u.hierPart = '/' :: '/' :: X ∧ '?' ∉ X ∧ '#' ∉ X := by
  have hp := not_mem_EscapedPath
  have hh := fun x hx => not_mem_escape_delim x hx u.Host .encodeHost (Or.inl rfl)
  unfold URL.hierPart
  simp only [hS, hO, hH, ne_eq, not_true_eq_false, not_false_eq_true, ↓reduceIte,
    false_or, true_or, false_and, and_false, List.nil_append, and_true]
  cases hU : u.User with
  | none =>
    simp only []
    split
    · refine ⟨escape u.Host .encodeHost ++ "/".toList ++ u.EscapedPath, ?_, ?_, ?_⟩
      · simp [String.toList]
      · simp only [List.mem_append, not_or]
        exact ⟨⟨hh _ (Or.inl rfl), by decide⟩, hp _ (Or.inl rfl) u⟩
      · simp only [List.mem_append, not_or]
        exact ⟨⟨hh _ (Or.inr rfl), by decide⟩, hp _ (Or.inr rfl) u⟩
    · refine ⟨escape u.Host .encodeHost ++ u.EscapedPath, ?_, ?_, ?_⟩
      · simp [String.toList]
      · simp only [List.mem_append, not_or]
        exact ⟨hh _ (Or.inl rfl), hp _ (Or.inl rfl) u⟩
      · simp only [List.mem_append, not_or]
        exact ⟨hh _ (Or.inr rfl), hp _ (Or.inr rfl) u⟩
  | some ui =>
    have hu := fun x hx => not_mem_Userinfo_String x hx ui
    simp only []
    split
    · refine ⟨ui.String ++ "@".toList ++ escape u.Host .encodeHost ++ "/".toList
        ++ u.EscapedPath, ?_, ?_, ?_⟩
      · simp [String.toList]
      · simp only [List.mem_append, not_or]
        exact ⟨⟨⟨⟨hu _ (Or.inl rfl), by decide⟩, hh _ (Or.inl rfl)⟩, by decide⟩,
          hp _ (Or.inl rfl) u⟩
      · simp only [List.mem_append, not_or]
        exact ⟨⟨⟨⟨hu _ (Or.inr rfl), by decide⟩, hh _ (Or.inr rfl)⟩, by decide⟩,
          hp _ (Or.inr rfl) u⟩
    · refine ⟨ui.String ++ "@".toList ++ escape u.Host .encodeHost ++ u.EscapedPath, ?_, ?_, ?_⟩
      · simp [String.toList]
      · simp only [List.mem_append, not_or]
        exact ⟨⟨⟨hu _ (Or.inl rfl), by decide⟩, hh _ (Or.inl rfl)⟩, hp _ (Or.inl rfl) u⟩
      · simp only [List.mem_append, not_or]
        exact ⟨⟨⟨hu _ (Or.inr rfl), by decide⟩, hh _ (Or.inr rfl)⟩, hp _ (Or.inr rfl) u⟩

/-- What is known when the rules before "Clean query parameters" fall through. -/
theorem specialRules_cont (ref r : Str) (refURL u : URL)
    (h : specialRules ref refURL = .cont r u) :
    stripScheme ref = some r ∧ u.Scheme = [] ∧ u.Host = aliasHost refURL.Host
      ∧ u.Opaque = refURL.Opaque ∧ u.User = refURL.User := by
  unfold specialRules at h
  split at h
  · exact absurd h (by simp)
  · simp only [] at h
    split at h
    · exact absurd h (by simp)
    · rename_i r' hr'
      split at h
      · exact absurd h (by simp)
      · split at h
        · exact absurd h (by simp)
        · split at h
          · exact absurd h (by simp)
          · split at h
            · exact absurd h (by simp)
            · split at h
              · exact absurd h (by simp)
              · split at h
                · exact absurd h (by simp)
                · simp only [Step.cont.injEq] at h
                  obtain ⟨h1, h2⟩ := h
                  subst h1 h2
                  exact ⟨hr', rfl, rfl, rfl, rfl⟩

theorem queryComponent_of_hier (X frag : Str) (force hasFrag : Bool)
    (h1 : '?' ∉ X) (h2 : '#' ∉ X) :
    queryComponent ((if force then X ++ "?".toList else X)
      ++ (if hasFrag then '#' :: frag else [])) = [] := by
  unfold queryComponent
  have hcut : (stringsCut ((if force then X ++ "?".toList else X)
      ++ (if hasFrag then '#' :: frag else [])) '#').1
      = (if force then X ++ "?".toList else X) := by
    have hno : '#' ∉ (if force then X ++ "?".toList else X) := by
      cases force
      · simpa using h2
      · simp only [↓reduceIte, List.mem_append, not_or]
        exact ⟨h2, by decide⟩
    cases hasFrag
    · simp only [Bool.false_eq_true, ↓reduceIte, List.append_nil]
      rw [stringsCut_not_mem _ _ hno]
    · simp only [↓reduceIte]
      rw [stringsCut_append _ _ _ hno]
  rw [hcut]
  cases force
  · simp only [Bool.false_eq_true, ↓reduceIte]
    rw [stringsCut_not_mem _ _ h1]
  · simp only [↓reduceIte]
    have : X ++ "?".toList = X ++ '?' :: [] := rfl
    rw [this, stringsCut_append _ _ _ h1]

theorem sliceFrom_two (a b : Char) (s : Str) : sliceFrom (a :: b :: s) 2 = some s := by
  unfold sliceFrom
  rw [if_pos]
  · rfl
  · constructor
    · decide
    · simp only [List.length_cons]
      omega

/-- For a URL with a host and no opaque part, the with-query fallback returns a name
whose query component is empty. -/
theorem cleanRefURL_query_fallback_of_host (ref r : Str) (refURL u : URL)
    (hcont : specialRules ref refURL = .cont r u)
    (hq : stringsIndex r "?".toList ≠ -1)
    (hH : u.Host ≠ []) (hO : u.Opaque = []) :
    ∃ name, returned (cleanRefURL ref refURL) = some (name, false)
      ∧ queryComponent name = [] := by
  obtain ⟨-, hS, -, -, -⟩ := specialRules_cont ref r refURL u hcont
  obtain ⟨X, hX, h1, h2⟩ := hierPart_of_host { u with RawQuery := [] } hS hO hH
  have hstr : URL.String { u with RawQuery := [] }
      = '/' :: '/' :: ((if u.ForceQuery then X ++ "?".toList else X)
          ++ (if decide (u.Fragment ≠ []) then
                '#' :: URL.EscapedFragment { u with RawQuery := [] } else [])) := by
    unfold URL.String
    simp only [hX]
    cases u.ForceQuery <;> by_cases hf : u.Fragment = [] <;> simp [hf, String.toList]
  refine ⟨_, ?_, queryComponent_of_hier X (URL.EscapedFragment { u with RawQuery := [] })
    u.ForceQuery (decide (u.Fragment ≠ [])) h1 h2⟩
  unfold cleanRefURL
  rw [hcont]
  simp only [genericFallback, hq, ↓reduceIte, ite_self, hstr, returned, sliceFrom_two,
    Option.map_some']

/-- For host `lobste.rs` and a path outside `/s/` the name is the bare host. -/
theorem cleanRefURL_lobsters (ref : Str) (refURL : URL)
    (hslice : sliceInRange ref)
    (hhost : refURL.Host = "lobste.rs".toList)
    (hpath : stringsHasPrefix refURL.Path "/s/".toList = false) :
    returned (cleanRefURL ref refURL) = some ("lobste.rs".toList, false) := by
  obtain ⟨r, hr, -⟩ := stripScheme_of_inRange ref hslice
  have hne : ("lobste.rs".toList = "link.oreilly.com".toList) = False := by decide
  have h0 : aliasHost "lobste.rs".toList = "lobste.rs".toList := by decide
  have h1 : stringsHasPrefix "lobste.rs".toList "www.google.".toList = false := by decide
  have h2 : groups.lookup "lobste.rs".toList = none := by decide
  simp only [cleanRefURL, specialRules, hhost, hne, hr, h0, h1, h2, hpath, returned,
    ↓reduceIte, Option.map_some', Bool.false_eq_true, not_false_eq_true, and_self]

theorem genericFallback_isGroup (r : Str) (u : URL) (name : Str) (g : Bool) (u' : URL)
    (h : genericFallback r u = some (name, g, u')) : g = false := by
  unfold genericFallback at h
  simp only [ite_self] at h
  split at h
  · simp only [Option.some.injEq, Prod.mk.injEq] at h
    exact h.2.1.symm
  · simp only [Option.map_eq_some', Prod.mk.injEq] at h
    obtain ⟨_, _, _, h2, _⟩ := h
    exact h2.symm

theorem lookup_mem (l : List (Str × Str)) (k v : Str) (h : l.lookup k = some v) :
    (k, v) ∈ l := by
  induction l with
  | nil => simp [List.lookup] at h
  | cons e l ih =>
    obtain ⟨a, b⟩ := e
    unfold List.lookup at h
    by_cases hk : k = a
    · subst hk
      simp only [beq_self_eq_true, Option.some.injEq] at h
      subst h
      exact List.mem_cons_self _ _
    · have : (k == a) = false := by simpa using hk
      simp only [this] at h
      exact List.mem_cons_of_mem _ (ih h)

theorem redditPath_isSome (path : Str) : ∃ p, redditPath path = some p := by
  have hlen : ∀ (s : Str), stringsHasSuffix path s = true → s.length ≤ path.length := by
    intro s hs
    unfold stringsHasSuffix at hs
    rw [List.isSuffixOf_iff_suffix] at hs
    exact hs.length_le
  unfold redditPath sliceTo
  split
  · rename_i h
    have : 4 ≤ path.length := by
      rcases h with h | h
      · exact hlen _ h
      · exact hlen _ h
    rw [if_pos (by omega)]
    exact ⟨_, rfl⟩
  · split
    · rename_i h
      have : 7 ≤ path.length := hlen _ h
      rw [if_pos (by omega)]
      exact ⟨_, rfl⟩
    · split
      · rename_i h
        have : 8 ≤ path.length := hlen _ h
        rw [if_pos (by omega)]
        exact ⟨_, rfl⟩
      · exact ⟨_, rfl⟩

/-- What is known when a rule before "Clean query parameters" returns. -/
theorem specialRules_ret (ref : Str) (u u' : URL) (name : Str) (g : Bool)
    (h : specialRules ref u = .ret name g u') :
    (u.Host = "link.oreilly.com".toList ∧ name = "link.oreilly.com".toList ∧ g = false
      ∧ u' = u)
    ∨ (u.Host ≠ "link.oreilly.com".toList ∧ (∃ r, stripScheme ref = some r)
      ∧ u' = aliasedURL u
      ∧ ((stringsHasPrefix (aliasHost u.Host) "www.google.".toList = true
          ∧ name = "Google".toList ∧ g = true)
        ∨ (stringsHasPrefix (aliasHost u.Host) "www.google.".toList = false
          ∧ groups.lookup (aliasHost u.Host) = some name ∧ g = true)
        ∨ (stringsHasPrefix (aliasHost u.Host) "www.google.".toList = false
          ∧ groups.lookup (aliasHost u.Host) = none ∧ g = false
          ∧ (name = "lobste.rs".toList
            ∨ name = "twitter.com/search?q=https%3A%2F%2Ft.co".toList
                ++ QueryEscape u.Path)))) := by
  unfold specialRules at h
  split at h
  · rename_i hhost
    simp only [Step.ret.injEq] at h
    obtain ⟨rfl, rfl, rfl⟩ := h
    exact Or.inl ⟨hhost, rfl, rfl, rfl⟩
  · rename_i hhost
    simp only [] at h
    split at h
    · exact absurd h (by simp)
    · rename_i r hr
      refine Or.inr ⟨hhost, ⟨r, hr⟩, ?_⟩
      split at h
      · rename_i hgoogle
        simp only [Step.ret.injEq] at h
        obtain ⟨rfl, rfl, rfl⟩ := h
        exact ⟨rfl, Or.inl ⟨hgoogle, rfl, rfl⟩⟩
      · rename_i hgoogle
        have hgoogle' : stringsHasPrefix (aliasHost u.Host) "www.google.".toList = false := by
          simpa using hgoogle
        split at h
        · rename_i gl hgl
          simp only [Step.ret.injEq] at h
          obtain ⟨rfl, rfl, rfl⟩ := h
          exact ⟨rfl, Or.inr (Or.inl ⟨hgoogle', hgl, rfl⟩)⟩
        · rename_i hgl
          split at h
          · simp only [Step.ret.injEq] at h
            obtain ⟨rfl, rfl, rfl⟩ := h
            exact ⟨rfl, Or.inr (Or.inr ⟨hgoogle', hgl, rfl, Or.inl rfl⟩)⟩
          · split at h
            · simp only [Step.ret.injEq] at h
              obtain ⟨rfl, rfl, rfl⟩ := h
              exact ⟨rfl, Or.inr (Or.inr ⟨hgoogle', hgl, rfl, Or.inl rfl⟩)⟩
            · split at h
              · exact absurd h (by simp)
              · rename_i p hp
                split at h
                · rename_i htco
                  have htco' : aliasHost u.Host = "t.co".toList := htco
                  have hnr : ¬ aliasHost u.Host = "www.reddit.com".toList := by
                    rw [htco']; decide
                  simp only [hnr, ↓reduceIte, Option.some.injEq] at hp
                  subst hp
                  simp only [Step.ret.injEq] at h
                  obtain ⟨rfl, rfl, rfl⟩ := h
                  exact ⟨rfl, Or.inr (Or.inr ⟨hgoogle', hgl, rfl, Or.inr rfl⟩)⟩
                · exact absurd h (by simp)

/-- What is known when the rules before "Clean query parameters" fall through: the URL
object is `normalURL` of the one passed in. -/
theorem specialRules_cont_url (ref r : Str) (u u' : URL)
    (h : specialRules ref u = .cont r u') :
    u.Host ≠ "link.oreilly.com".toList ∧ stripScheme ref = some r ∧ u' = normalURL u
      ∧ stringsHasPrefix (aliasHost u.Host) "www.google.".toList = false
      ∧ groups.lookup (aliasHost u.Host) = none
      ∧ ¬ (aliasHost u.Host = "lobste.rs".toList
          ∧ ¬ stringsHasPrefix u.Path "/s/".toList = true)
      ∧ ¬ (aliasHost u.Host = "gambe.ro".toList
          ∧ ¬ stringsHasPrefix u.Path "/s/".toList = true)
      ∧ aliasHost u.Host ≠ "t.co".toList := by
  unfold specialRules at h
  split at h
  · exact absurd h (by simp)
  · rename_i hhost
    simp only [] at h
    split at h
    · exact absurd h (by simp)
    · rename_i r' hr'
      split at h
      · exact absurd h (by simp)
      · rename_i hgoogle
        split at h
        · exact absurd h (by simp)
        · rename_i hgl
          split at h
          · exact absurd h (by simp)
          · rename_i hlob
            split at h
            · exact absurd h (by simp)
            · rename_i hgam
              split at h
              · exact absurd h (by simp)
              · rename_i p hp
                split at h
                · exact absurd h (by simp)
                · rename_i htco
                  simp only [Step.cont.injEq] at h
                  obtain ⟨h1, h2⟩ := h
                  subst h1 h2
                  refine ⟨hhost, hr', ?_, by simpa using hgoogle, hgl, hlob, hgam, htco⟩
                  unfold normalURL aliasedURL strippedPath
                  simp only [] at hp ⊢
                  split at hp
                  · rename_i hred
                    rw [if_pos hred, hp]
                    rfl
                  · rename_i hred
                    rw [if_neg hred]
                    simp only [Option.some.injEq] at hp
                    rw [hp]

theorem cleanRefURL_cases (ref : Str) (u u' : URL) (name : Str) (g : Bool)
    (h : cleanRefURL ref u = some (name, g, u')) :
    specialRules ref u = .ret name g u'
      ∨ ∃ r v, specialRules ref u = .cont r v ∧ genericFallback r v = some (name, g, u') := by
  unfold cleanRefURL at h
  cases hs : specialRules ref u with
  | ret n b v =>
    rw [hs] at h
    simp only [Option.some.injEq, Prod.mk.injEq] at h
    obtain ⟨rfl, rfl, rfl⟩ := h
    exact Or.inl rfl
  | panic =>
    rw [hs] at h
    exact absurd h (by simp)
  | cont r v =>
    rw [hs] at h
    exact Or.inr ⟨r, v, rfl, h⟩

theorem returned_eq_some (x : Option (Str × Bool × URL)) (name : Str) (g : Bool)
    (h : returned x = some (name, g)) : ∃ u', x = some (name, g, u') := by
  unfold returned at h
  simp only [Option.map_eq_some', Prod.mk.injEq] at h
  obtain ⟨⟨n, b, v⟩, hx, hn, hb⟩ := h
  simp only [] at hn hb
  subst hn hb
  exact ⟨v, hx⟩

theorem escape_head (s : Str) (mode : Encoding) (hs : s ≠ [])
    (hsl : shouldEscape '/' mode = true) :
    ∃ c t, escape s mode = c :: t ∧ c ≠ '/' := by
  cases s with
  | nil => exact absurd rfl hs
  | cons a s =>
    unfold escape
    split
    · exact ⟨_, _, rfl, by decide⟩
    · split
      · exact ⟨_, _, rfl, by decide⟩
      · rename_i hne
        refine ⟨_, _, rfl, ?_⟩
        intro ha
        subst ha
        exact hne hsl

theorem userinfo_head (ui : Userinfo) :
    ∃ c t, ui.String ++ "@".toList = c :: t ∧ c ≠ '/' := by
  unfold Userinfo.String
  simp only []
  by_cases hu : ui.username = []
  · rw [hu]
    split
    · exact ⟨':', _, rfl, by decide⟩
    · exact ⟨'@', [], rfl, by decide⟩
  · obtain ⟨c, t, ht, hc⟩ := escape_head ui.username .encodeUserPassword hu (by decide)
    rw [ht]
    split
    · exact ⟨c, _, rfl, hc⟩
    · exact ⟨c, _, rfl, hc⟩

/-- With the scheme cleared, no opaque part and a host, the string form is `//` followed
by a byte other than `/`. -/
theorem hierPart_of_host_head (u : URL) (hS : u.Scheme = []) (hO : u.Opaque = [])
    (hH : u.Host ≠ []) :
    ∃ c X, u.hierPart = '/' :: '/' :: c :: X ∧ c ≠ '/' := by
  obtain ⟨c, t, ht, hc⟩ := escape_head u.Host .encodeHost hH (by decide)
  unfold URL.hierPart
  simp only [hS, hO, hH, ne_eq, not_true_eq_false, not_false_eq_true, ↓reduceIte,
    false_or, true_or, false_and, and_false, List.nil_append, and_true]
  cases hU : u.User with
  | none =>
    simp only [ht]
    split
    · exact ⟨c, _, rfl, hc⟩
    · exact ⟨c, _, rfl, hc⟩
  | some ui =>
    obtain ⟨d, t', ht', hd⟩ := userinfo_head ui
    simp only []
    split
    · refine ⟨d, t' ++ escape u.Host .encodeHost ++ "/".toList ++ u.EscapedPath, ?_, hd⟩
      rw [show '/' :: '/' :: d :: (t' ++ escape u.Host .encodeHost ++ "/".toList
            ++ u.EscapedPath)
          = "//".toList ++ (ui.String ++ "@".toList) ++ escape u.Host .encodeHost
            ++ "/".toList ++ u.EscapedPath by rw [ht']; rfl]
      simp [String.toList]
    · refine ⟨d, t' ++ escape u.Host .encodeHost ++ u.EscapedPath, ?_, hd⟩
      rw [show '/' :: '/' :: d :: (t' ++ escape u.Host .encodeHost ++ u.EscapedPath)
          = "//".toList ++ (ui.String ++ "@".toList) ++ escape u.Host .encodeHost
            ++ u.EscapedPath by rw [ht']; rfl]
      simp [String.toList]

theorem String_of_host_head (u : URL) (hS : u.Scheme = []) (hO : u.Opaque = [])
    (hH : u.Host ≠ []) :
    ∃ c Y, u.String = '/' :: '/' :: c :: Y ∧ c ≠ '/' := by
  obtain ⟨c, X, hX, hc⟩ := hierPart_of_host_head u hS hO hH
  unfold URL.String
  simp only [hX]
  split <;> split <;> exact ⟨c, _, rfl, hc⟩

theorem stringsTrimLeft_slashes (c : Char) (Y : Str) (hc : c ≠ '/') :
    stringsTrimLeft ('/' :: '/' :: c :: Y) "/".toList = c :: Y := by
  have h1 : "/".toList.contains '/' = true := by decide
  have h2 : "/".toList.contains c = false := by
    rw [Bool.eq_false_iff]
    intro h
    have := List.mem_of_elem_eq_true h
    simp only [String.toList, List.mem_singleton] at this
    exact hc this
  unfold stringsTrimLeft
  rw [List.dropWhile_cons, if_pos h1, List.dropWhile_cons, if_pos h1, List.dropWhile_cons]
  simp only [h2, Bool.false_eq_true, ↓reduceIte]

theorem stringsTrimLeft_head (s cutset : Str) (c : Char)
    (h : (stringsTrimLeft s cutset).head? = some c) : cutset.contains c = false := by
  unfold stringsTrimLeft at h
  induction s with
  | nil => simp at h
  | cons a s ih =>
    rw [List.dropWhile_cons] at h
    split at h
    · exact ih h
    · rename_i hne
      simp only [List.head?_cons, Option.some.injEq] at h
      subst h
      simpa using hne

/-- With a host and no opaque part, the two generic fallbacks give the same name: the
string form without its leading `//`. -/
theorem genericFallback_of_host (r : Str) (u : URL) (hS : u.Scheme = []) (hO : u.Opaque = [])
    (hH : u.Host ≠ []) :
    ∃ c Y, c ≠ '/' ∧ URL.String { u with RawQuery := [] } = '/' :: '/' :: c :: Y
      ∧ (stringsIndex r "?".toList ≠ -1 →
          genericFallback r u = some (c :: Y, false, { u with RawQuery := [] }))
      ∧ (stringsIndex r "?".toList = -1 →
          genericFallback r { u with RawQuery := [] }
            = some (c :: Y, false, { u with RawQuery := [] })) := by
  obtain ⟨c, Y, hY, hc⟩ := String_of_host_head { u with RawQuery := [] } hS hO hH
  refine ⟨c, Y, hc, hY, ?_, ?_⟩
  · intro hq
    unfold genericFallback
    simp only [hq, ↓reduceIte, ite_self, hY, sliceFrom_two, Option.map_some']
  · intro hq
    unfold genericFallback
    simp only [hq, ↓reduceIte, hY, stringsTrimLeft_slashes c Y hc]

theorem hostAlias_targets : ∀ e ∈ hostAlias,
    e.2 ≠ [] ∧ e.2 ≠ "link.oreilly.com".toList ∧ hostAlias.lookup e.2 = none := by
  decide

theorem aliasHost_cases (host : Str) :
    aliasHost host = host
      ∨ (aliasHost host ≠ [] ∧ aliasHost host ≠ "link.oreilly.com".toList
        ∧ hostAlias.lookup (aliasHost host) = none) := by
  unfold aliasHost
  cases hl : hostAlias.lookup host with
  | none => exact Or.inl rfl
  | some a => exact Or.inr (hostAlias_targets (host, a) (lookup_mem _ _ _ hl))

theorem aliasHost_idem (host : Str) : aliasHost (aliasHost host) = aliasHost host := by
  have key : ∀ x, hostAlias.lookup x = none → aliasHost x = x := by
    intro x hx
    unfold aliasHost
    rw [hx]
  rcases aliasHost_cases host with h | ⟨-, -, h⟩
  · rw [h, h]
  · exact key _ h

theorem aliasHost_ne_nil (host : Str) (h : host ≠ []) : aliasHost host ≠ [] := by
  rcases aliasHost_cases host with h1 | ⟨h1, -, -⟩
  · rw [h1]; exact h
  · exact h1

theorem aliasHost_ne_oreilly (host : Str) (h : host ≠ "link.oreilly.com".toList) :
    aliasHost host ≠ "link.oreilly.com".toList := by
  rcases aliasHost_cases host with h1 | ⟨-, h1, -⟩
  · rw [h1]; exact h
  · exact h1

theorem groups_labels : ∀ e ∈ groups, e.2 ≠ [] := by decide

theorem specialRules_ret_name (ref : Str) (u u' : URL) (name : Str) (g : Bool)
    (h : specialRules ref u = .ret name g u') : name ≠ [] := by
  rcases specialRules_ret _ _ _ _ _ h with ⟨-, h2, -, -⟩ | ⟨-, -, -, h4⟩
  · rw [h2]; decide
  · rcases h4 with ⟨-, h6, -⟩ | ⟨-, h6, -⟩ | ⟨-, -, -, h6 | h6⟩
    · rw [h6]; decide
    · exact groups_labels (_, name) (lookup_mem _ _ _ h6)
    · rw [h6]; decide
    · rw [h6]
      intro hh
      exact absurd (List.append_eq_nil.1 hh).1 (by decide)

/-! ## Lemmas on the reports -/

theorem wrapInt_of_range (x : Int) (h1 : -(2 ^ 63) ≤ x) (h2 : x < 2 ^ 63) : wrapInt x = x := by
  unfold wrapInt
  omega

theorem trimMore_more (h : Stats) (limit : Int) (h1 : 0 ≤ limit)
    (h2 : limit < (h.Stats.length : Int)) (h3 : (h.Stats.length : Int) ≤ limit + 1) :
    trimMore h limit = some { More := true, Stats := h.Stats.take limit.toNat } := by
  unfold trimMore sliceRowsTo
  rw [if_pos (by omega), if_pos (by omega)]
  have : (h.Stats.length : Int) - 1 = limit := by omega
  rw [this]
  rfl

theorem trimMore_no_more (h : Stats) (limit : Int) (h1 : (h.Stats.length : Int) ≤ limit) :
    trimMore h limit = some h := by
  unfold trimMore
  rw [if_neg (by omega)]

theorem trimMore_of_nonneg (h : Stats) (limit : Int) (h1 : 0 ≤ limit) :
    ∃ h', trimMore h limit = some h' ∧ ∃ k, h'.Stats = h.Stats.take k := by
  unfold trimMore sliceRowsTo
  by_cases hl : (h.Stats.length : Int) > limit
  · rw [if_pos hl, if_pos (by omega)]
    exact ⟨_, rfl, _, rfl⟩
  · rw [if_neg hl]
    exact ⟨h, rfl, h.Stats.length, (List.take_length _).symm⟩

theorem trimMore_take (h h' : Stats) (limit : Int) (hh : trimMore h limit = some h') :
    ∃ k, h'.Stats = h.Stats.take k := by
  unfold trimMore sliceRowsTo at hh
  split at hh
  · split at hh
    · simp only [Option.map_some', Option.some.injEq] at hh
      subst hh
      exact ⟨_, rfl⟩
    · simp at hh
  · simp only [Option.some.injEq] at hh
    subst hh
    exact ⟨h.Stats.length, (List.take_length _).symm⟩

theorem pairwise_take {α : Type} (R : α → α → Prop) (l : List α) (k : Nat)
    (h : l.Pairwise R) : (l.take k).Pairwise R :=
  h.sublist (List.take_sublist k l)

theorem specialRules_scheme (ref : Str) (u : URL) (s : Str)
    (h : u.Host ≠ "link.oreilly.com".toList) :
    specialRules ref { u with Scheme := s } = specialRules ref u := by
  unfold specialRules
  simp only [h, ↓reduceIte]

theorem cleanRefURL_scheme (ref : Str) (u : URL) (s : Str) :
    returned (cleanRefURL ref { u with Scheme := s }) = returned (cleanRefURL ref u) := by
  by_cases h : u.Host = "link.oreilly.com".toList
  · simp only [cleanRefURL, specialRules, h, returned, ↓reduceIte, Option.map_some']
  · unfold cleanRefURL
    rw [specialRules_scheme ref u s h]

theorem redditPath_of_no_suffix (p : Str)
    (h : ∀ suf ∈ redditSuffixes, stringsHasSuffix p suf = false) : redditPath p = some p := by
  have h1 := h "/top".toList (by decide)
  have h2 := h "/new".toList (by decide)
  have h3 := h "/search".toList (by decide)
  have h4 := h ".compact".toList (by decide)
  unfold redditPath
  simp only [h1, h2, h3, h4, Bool.false_eq_true, or_self, ↓reduceIte]

theorem specialRules_aliasedURL (ref : Str) (u : URL)
    (h : u.Host ≠ "link.oreilly.com".toList) :
    specialRules ref (aliasedURL u) = specialRules ref u := by
  have h' : ¬ aliasHost u.Host = "link.oreilly.com".toList := aliasHost_ne_oreilly _ h
  unfold specialRules
  simp only [aliasedURL, h, h', ↓reduceIte, aliasHost_idem]

theorem specialRules_normalURL (ref r : Str) (u v : URL) (q : Str)
    (hcont : specialRules ref u = .cont r v)
    (hfix : v.Host = "www.reddit.com".toList →
      ∀ suf ∈ redditSuffixes, stringsHasSuffix v.Path suf = false) :
    specialRules ref { v with RawQuery := q } = .cont r { v with RawQuery := q } := by
  obtain ⟨h1, h2, h3, h4, h5, h6, h7, h8⟩ := specialRules_cont_url _ _ _ _ hcont
  subst h3
  have h1' : ¬ aliasHost u.Host = "link.oreilly.com".toList := aliasHost_ne_oreilly _ h1
  by_cases hred : aliasHost u.Host = "www.reddit.com".toList
  · have hp := redditPath_of_no_suffix _ (hfix hred)
    have hp' : redditPath (strippedPath (aliasHost u.Host) u.Path)
        = some (strippedPath (aliasHost u.Host) u.Path) := hp
    have e1 : ("www.reddit.com".toList = "link.oreilly.com".toList) = False := by decide
    have e2 : stringsHasPrefix "www.reddit.com".toList "www.google.".toList = false := by decide
    have e3 : groups.lookup "www.reddit.com".toList = none := by decide
    have e4 : ("www.reddit.com".toList = "lobste.rs".toList) = False := by decide
    have e5 : ("www.reddit.com".toList = "gambe.ro".toList) = False := by decide
    have e6 : ("www.reddit.com".toList = "t.co".toList) = False := by decide
    have e0 : aliasHost "www.reddit.com".toList = "www.reddit.com".toList := by decide
    rw [hred] at hp'
    unfold specialRules
    simp only [normalURL, aliasedURL, hred, e0, e1, e2, e3, e4, e5, e6, h2, hp', ↓reduceIte,
      false_and, Bool.false_eq_true]
  · have hp : strippedPath (aliasHost u.Host) u.Path = u.Path := by
      unfold strippedPath
      rw [if_neg hred]
    unfold specialRules
    simp only [normalURL, aliasedURL, hp, h1', h2, h4, h5, h6, h7, h8, hred, aliasHost_idem,
      ↓reduceIte, Bool.false_eq_true]

/-- A second call on the URL object left by a call that returned gives the same result
and leaves the object as it is, unless a `www.reddit.com` path still ends in a suffix. -/
theorem second_call_fixed_point (ref : Str) (refURL u1 : URL) (name : Str) (isGroup : Bool)
    (h : cleanRefURL ref refURL = some (name, isGroup, u1))
    (hfix : u1.Host = "www.reddit.com".toList →
      ∀ suf ∈ redditSuffixes, stringsHasSuffix u1.Path suf = false) :
    cleanRefURL ref u1 = some (name, isGroup, u1) := by
  rcases cleanRefURL_cases _ _ _ _ _ h with hs | ⟨r, v, hs, hg⟩
  · rcases specialRules_ret _ _ _ _ _ hs with ⟨-, -, -, h4⟩ | ⟨h1, -, h3, -⟩
    · subst h4; exact h
    · subst h3
      unfold cleanRefURL
      rw [specialRules_aliasedURL ref refURL h1, hs]
  · unfold genericFallback at hg
    simp only [ite_self] at hg
    split at hg
    · rename_i hq
      simp only [Option.some.injEq, Prod.mk.injEq] at hg
      obtain ⟨hn, hg', hu⟩ := hg
      subst hu
      have hB := specialRules_normalURL ref r refURL v v.RawQuery hs hfix
      have hB' : specialRules ref v = .cont r v := hB
      unfold cleanRefURL
      rw [hB']
      simp only [genericFallback, hq, ↓reduceIte, hn, hg']
    · rename_i hq
      simp only [Option.map_eq_some', Prod.mk.injEq] at hg
      obtain ⟨nm, hsl, hn, hg', hu⟩ := hg
      subst hu hn hg'
      have hB := specialRules_normalURL ref r refURL v [] hs hfix
      unfold cleanRefURL
      rw [hB]
      simp only [genericFallback, hq, ↓reduceIte, ite_self, hsl, Option.map_some']

/-! ## The properties -/

/-- C1 (the code breaks it): `cleanRefURL` is not total.  For the referrer `x:`, which
`url.Parse` turns into a URL with scheme `x` and nothing else, the slice `ref[p+3:]` is out
of range; for the referrer `a?x=1` (path `a`, query `x=1`) the string form of the URL is the
one byte `a` and the slice `refURL.String()[2:]` is out of range.  Both calls panic. -/
theorem cleanRefURL_panics_out_of_range :
    cleanRefURL "x:".toList { Scheme := "x".toList } = none
    ∧ cleanRefURL "a?x=1".toList { Path := "a".toList, RawQuery := "x=1".toList } = none := by
  decide

/-- C2 (the code breaks it): for `https://example.com/page?utm_source=x&utm_medium=y&id=1`
the query values left after the four deletions still hold `id=1`, but they are never
written back into the URL: the returned name is `example.com/page`, without `id=1`. -/
theorem cleanRefURL_query_fallback_loses_parameter :
    delTracking (URL.Query
        { Scheme := "https".toList, Host := "example.com".toList,
          Path := "/page".toList, RawQuery := "utm_source=x&utm_medium=y&id=1".toList })
      = [("id".toList, ["1".toList])]
    ∧ returned (cleanRefURL "https://example.com/page?utm_source=x&utm_medium=y&id=1".toList
        { Scheme := "https".toList, Host := "example.com".toList,
          Path := "/page".toList, RawQuery := "utm_source=x&utm_medium=y&id=1".toList })
      = some ("example.com/page".toList, false) := by
  decide

/-- C3 (the code breaks it): for the referrer `#a?utm_source=x`, a URL with only the
fragment `a?utm_source=x`, the with-query fallback is reached and the slice `[2:]` removes
`#a`: the returned name is `?utm_source=x`, whose query component holds the tracking
parameter `utm_source` with value `x`. -/
theorem cleanRefURL_tracking_parameter_in_name :
    specialRules "#a?utm_source=x".toList { Fragment := "a?utm_source=x".toList }
      = .cont "#a?utm_source=x".toList { Fragment := "a?utm_source=x".toList }
    ∧ stringsIndex "#a?utm_source=x".toList "?".toList ≠ -1
    ∧ returned (cleanRefURL "#a?utm_source=x".toList { Fragment := "a?utm_source=x".toList })
      = some ("?utm_source=x".toList, false)
    ∧ Values.find (ParseQuery (queryComponent "?utm_source=x".toList)) "utm_source".toList
      = some ["x".toList] := by
  decide

/-- C4 (the code breaks it): `m.facebook.com` is a key of `groups`, with label
`www.facebook.com`, but it is also a key of `hostAlias`, which is applied first; for
`https://m.facebook.com/foo` the call returns `("www.facebook.com/foo", false)` and not
`("www.facebook.com", true)`, which is what `l.facebook.com` gets. -/
theorem cleanRefURL_aliased_group_key_not_grouped :
    groups.lookup "m.facebook.com".toList = some "www.facebook.com".toList
    ∧ returned (cleanRefURL "https://m.facebook.com/foo".toList
        { Scheme := "https".toList, Host := "m.facebook.com".toList, Path := "/foo".toList })
      = some ("www.facebook.com/foo".toList, false)
    ∧ returned (cleanRefURL "https://l.facebook.com/foo".toList
        { Scheme := "https".toList, Host := "l.facebook.com".toList, Path := "/foo".toList })
      = some ("www.facebook.com".toList, true) := by
  decide

/-- C5: a referrer whose host is not `link.oreilly.com` and, after aliasing, starts with
`www.google.` gives `("Google", true)`, whatever its path and query (the literal referrer
being one on which the slice of line 89 is in range, as for every `scheme://host...`). -/
theorem cleanRefURL_google (ref : Str) (refURL : URL)
    (hslice : sliceInRange ref)
    (hne : refURL.Host ≠ "link.oreilly.com".toList)
    (hg : stringsHasPrefix (aliasHost refURL.Host) "www.google.".toList = true) :
    returned (cleanRefURL ref refURL) = some ("Google".toList, true) := by
  obtain ⟨r, hr, -⟩ := stripScheme_of_inRange ref hslice
  simp only [cleanRefURL, specialRules, hne, hr, hg, returned, ↓reduceIte, Option.map_some']

theorem cleanRefURL_google_witness :
    returned (cleanRefURL "https://www.google.co.nz/search?q=x".toList
      { Scheme := "https".toList, Host := "www.google.co.nz".toList,
        Path := "/search".toList, RawQuery := "q=x".toList })
      = some ("Google".toList, true) :=
  cleanRefURL_google _ _ (by decide) (by decide) (by decide)

/-- C6: for every entry `a -> c` of `hostAlias`, every URL and every literal referrer
string, the call on the URL with host `a` and the call on the same URL with host `c`
have the same outcome: the same pair `(name, isGroup)`, or a panic in both. -/
theorem cleanRefURL_alias_stable (ref : Str) (refURL : URL) (a c : Str)
    (h : (a, c) ∈ hostAlias) :
    returned (cleanRefURL ref { refURL with Host := a })
      = returned (cleanRefURL ref { refURL with Host := c }) := by
  simp only [hostAlias, List.mem_cons, Prod.mk.injEq, List.mem_singleton, List.not_mem_nil,
    or_false] at h
  rcases h with ⟨rfl, rfl⟩ | ⟨rfl, rfl⟩ | ⟨rfl, rfl⟩ | ⟨rfl, rfl⟩ | ⟨rfl, rfl⟩ | ⟨rfl, rfl⟩
    | ⟨rfl, rfl⟩ <;> rfl

theorem cleanRefURL_alias_stable_witness :
    returned (cleanRefURL "https://old.reddit.com/r/vim/search".toList
        { Scheme := "https".toList, Host := "old.reddit.com".toList,
          Path := "/r/vim/search".toList })
      = returned (cleanRefURL "https://old.reddit.com/r/vim/search".toList
        { Scheme := "https".toList, Host := "www.reddit.com".toList,
          Path := "/r/vim/search".toList }) :=
  cleanRefURL_alias_stable "https://old.reddit.com/r/vim/search".toList
    { Scheme := "https".toList, Path := "/r/vim/search".toList }
    "old.reddit.com".toList "www.reddit.com".toList (by decide)

/-- C7 (the code breaks it): for host `gambe.ro` and a path outside `/s/` the call returns
the name `lobste.rs`, not the bare host `gambe.ro`; for host `lobste.rs` it returns
`lobste.rs`. -/
theorem cleanRefURL_gambero_named_lobsters :
    returned (cleanRefURL "https://gambe.ro/newest".toList
        { Scheme := "https".toList, Host := "gambe.ro".toList, Path := "/newest".toList })
      = some ("lobste.rs".toList, false)
    ∧ returned (cleanRefURL "https://lobste.rs/newest".toList
        { Scheme := "https".toList, Host := "lobste.rs".toList, Path := "/newest".toList })
      = some ("lobste.rs".toList, false) := by
  decide

/-- C8: for a referrer without `?` whose host after aliasing is `www.reddit.com` and whose
path is `S` followed by one of `/top`, `/new`, `/search`, `.compact`, the call returns the
string form (leading slashes trimmed) of the URL with its scheme cleared, host
`www.reddit.com` and path `S`, and `isGroup = false`. -/
theorem cleanRefURL_reddit_suffix (ref : Str) (refURL : URL) (S suf : Str)
    (hslice : sliceInRange ref) (hq : '?' ∉ ref)
    (hhost : aliasHost refURL.Host = "www.reddit.com".toList)
    (hsuf : suf ∈ redditSuffixes)
    (hpath : refURL.Path = S ++ suf) :
    returned (cleanRefURL ref refURL)
      = some (stringsTrimLeft
          (URL.String { refURL with Scheme := [], Host := "www.reddit.com".toList, Path := S })
          "/".toList, false) := by
  obtain ⟨r, hr, hmem⟩ := stripScheme_of_inRange ref hslice
  have hne : refURL.Host ≠ "link.oreilly.com".toList := by
    intro h
    rw [h] at hhost
    exact absurd hhost (by decide)
  have h1 : stringsHasPrefix "www.reddit.com".toList "www.google.".toList = false := by decide
  have h2 : groups.lookup "www.reddit.com".toList = none := by decide
  have h3 : ("www.reddit.com".toList = "lobste.rs".toList) = False := by decide
  have h4 : ("www.reddit.com".toList = "gambe.ro".toList) = False := by decide
  have h5 : ("www.reddit.com".toList = "t.co".toList) = False := by decide
  have h6 : stringsIndex r "?".toList = -1 := indexFrom_not_mem _ _ _ (hmem _ hq)
  simp only [cleanRefURL, specialRules, hne, hr, hhost, h1, h2, h3, h4, h5, hpath,
    redditPath_append S suf hsuf, genericFallback, h6, returned, ↓reduceIte,
    Option.map_some', false_and, Bool.false_eq_true]

theorem cleanRefURL_reddit_suffix_witness :
    returned (cleanRefURL "https://www.reddit.com/r/golang/top".toList
        { Scheme := "https".toList, Host := "www.reddit.com".toList,
          Path := "/r/golang/top".toList })
      = some ("www.reddit.com/r/golang".toList, false) :=
  cleanRefURL_reddit_suffix "https://www.reddit.com/r/golang/top".toList
    { Scheme := "https".toList, Host := "www.reddit.com".toList,
      Path := "/r/golang/top".toList }
    "/r/golang".toList "/top".toList (by decide) (by decide) (by decide) (by decide) rfl

/-- C9: for a referrer with host `t.co` and path `P` (a byte string) the call returns
`twitter.com/search?q=` followed by the query-escaping of `https://t.co` ++ `P`, with
`isGroup = false`, whatever the query of the referrer; parsing the query component of that
name gives the one parameter `q`, whose decoded value is `https://t.co` ++ `P`. -/
theorem cleanRefURL_tco (ref : Str) (refURL : URL)
    (hslice : sliceInRange ref)
    (hhost : refURL.Host = "t.co".toList)
    (hbytes : ∀ c ∈ refURL.Path, c.toNat < 256) :
    ∃ name, returned (cleanRefURL ref refURL) = some (name, false)
      ∧ name = "twitter.com/search?q=".toList
          ++ QueryEscape ("https://t.co".toList ++ refURL.Path)
      ∧ Values.find (ParseQuery (queryComponent name)) "q".toList
          = some ["https://t.co".toList ++ refURL.Path] := by
  obtain ⟨r, hr, -⟩ := stripScheme_of_inRange ref hslice
  have hne : ("t.co".toList = "link.oreilly.com".toList) = False := by decide
  have h0 : aliasHost "t.co".toList = "t.co".toList := by decide
  have h1 : stringsHasPrefix "t.co".toList "www.google.".toList = false := by decide
  have h2 : groups.lookup "t.co".toList = none := by decide
  have h3 : ("t.co".toList = "lobste.rs".toList) = False := by decide
  have h4 : ("t.co".toList = "gambe.ro".toList) = False := by decide
  have h5 : ("t.co".toList = "www.reddit.com".toList) = False := by decide
  have hesc : "twitter.com/search?q=https%3A%2F%2Ft.co".toList ++ QueryEscape refURL.Path
      = "twitter.com/search?q=".toList
          ++ QueryEscape ("https://t.co".toList ++ refURL.Path) := by
    unfold QueryEscape
    rw [escape_append]
    have : escape "https://t.co".toList .encodeQueryComponent = "https%3A%2F%2Ft.co".toList := by
      decide
    rw [this, ← List.append_assoc]
    rfl
  refine ⟨_, ?_, rfl, ?_⟩
  · simp only [cleanRefURL, specialRules, hhost, hne, hr, h0, h1, h2, h3, h4, h5, returned,
      ↓reduceIte, Option.map_some', false_and, Bool.false_eq_true, hesc]
  · set P := "https://t.co".toList ++ refURL.Path with hP
    have hPb : ∀ c ∈ P, c.toNat < 256 := by
      intro c hc
      rcases List.mem_append.1 hc with h | h
      · exact (show ∀ d ∈ "https://t.co".toList, d.toNat < 256 by decide) c h
      · exact hbytes c h
    have hno : ∀ x, x ∈ "#&;=".toList → x ∉ QueryEscape P := by
      intro x hx
      simp only [String.toList, List.mem_cons, List.mem_singleton, List.not_mem_nil,
        or_false] at hx
      rcases hx with rfl | rfl | rfl | rfl <;>
        exact not_mem_escape _ _ _ (by decide) (by decide) (by decide) (by decide)
    have hq : queryComponent ("twitter.com/search?q=".toList ++ QueryEscape P)
        = "q=".toList ++ QueryEscape P := by
      unfold queryComponent
      rw [stringsCut_not_mem _ '#']
      · exact congrArg (fun t => t.2.1)
          (stringsCut_append "twitter.com/search".toList ("q=".toList ++ QueryEscape P) '?'
            (by decide))
      · intro h
        rcases List.mem_append.1 h with h | h
        · exact absurd h (by decide)
        · exact hno _ (by decide) h
    rw [hq]
    unfold ParseQuery
    rw [splitByte_not_mem]
    · have hcut : stringsCut ("q=".toList ++ QueryEscape P) '='
          = ("q".toList, QueryEscape P, true) :=
        stringsCut_append "q".toList (QueryEscape P) '=' (by decide)
      have hsemi : ("q=".toList ++ QueryEscape P).contains ';' = false := by
        rw [Bool.eq_false_iff]
        intro h
        rcases List.mem_append.1 (List.mem_of_elem_eq_true h) with h | h
        · exact absurd h (by decide)
        · exact hno _ (by decide) h
      have hne' : ("q=".toList ++ QueryEscape P) ≠ [] := by
        simp
      have hun : QueryUnescape (QueryEscape P) = some P := unescape_escape P hPb
      have hunq : QueryUnescape "q".toList = some "q".toList := by decide
      simp only [List.foldl, parseQueryStep, hsemi, hne', hcut, hun, hunq, ↓reduceIte,
        Bool.false_eq_true, Values.append, Values.find]
      simp [List.lookup]
    · intro h
      rcases List.mem_append.1 h with h | h
      · exact absurd h (by decide)
      · exact hno _ (by decide) h

theorem cleanRefURL_tco_witness :
    ∃ name, returned (cleanRefURL "https://t.co/c3MITw38Yq?amp=1".toList
        { Scheme := "https".toList, Host := "t.co".toList, Path := "/c3MITw38Yq".toList,
          RawQuery := "amp=1".toList }) = some (name, false)
      ∧ name = "twitter.com/search?q=https%3A%2F%2Ft.co%2Fc3MITw38Yq".toList
      ∧ Values.find (ParseQuery (queryComponent name)) "q".toList
          = some ["https://t.co/c3MITw38Yq".toList] :=
  cleanRefURL_tco "https://t.co/c3MITw38Yq?amp=1".toList
    { Scheme := "https".toList, Host := "t.co".toList, Path := "/c3MITw38Yq".toList,
      RawQuery := "amp=1".toList } (by decide) rfl (by decide)

/-- C10: a referrer whose parsed host is `link.oreilly.com` gives
`("link.oreilly.com", false)`, whatever its scheme, path, query and literal string. -/
theorem cleanRefURL_oreilly (ref : Str) (refURL : URL)
    (h : refURL.Host = "link.oreilly.com".toList) :
    returned (cleanRefURL ref refURL) = some ("link.oreilly.com".toList, false) := by
  simp only [cleanRefURL, specialRules, h, returned, ↓reduceIte, Option.map_some']

theorem cleanRefURL_oreilly_witness :
    returned (cleanRefURL "x:".toList
        { Scheme := "x".toList, Host := "link.oreilly.com".toList,
          Path := "/s/x/top".toList, RawQuery := "utm_source=a".toList })
      = some ("link.oreilly.com".toList, false) :=
  cleanRefURL_oreilly _ _ rfl

/-- C11 (counterexample): the name of the no-query fallback can start with the scheme of
the referrer followed by `://`, and it is not the string form of the URL as parsed.  For
`http://http://x` (host `http:`, path `//x`) the name is `http://x`; for
`https://old.reddit.com/r/vim/search` the name is `www.reddit.com/r/vim`, while the parsed
URL with only its scheme cleared has the string form `old.reddit.com/r/vim/search`. -/
theorem cleanRefURL_no_query_name_counterexample :
    specialRules "http://http://x".toList
        { Scheme := "http".toList, Host := "http:".toList, Path := "//x".toList }
      = .cont "http://x".toList { Host := "http:".toList, Path := "//x".toList }
    ∧ stringsIndex "http://x".toList "?".toList = -1
    ∧ returned (cleanRefURL "http://http://x".toList
        { Scheme := "http".toList, Host := "http:".toList, Path := "//x".toList })
      = some ("http://x".toList, false)
    ∧ stringsHasPrefix "http://x".toList ("http".toList ++ "://".toList) = true
    ∧ returned (cleanRefURL "https://old.reddit.com/r/vim/search".toList
        { Scheme := "https".toList, Host := "old.reddit.com".toList,
          Path := "/r/vim/search".toList })
      = some ("www.reddit.com/r/vim".toList, false)
    ∧ stringsTrimLeft (URL.String
        { Scheme := [], Host := "old.reddit.com".toList, Path := "/r/vim/search".toList })
        "/".toList = "old.reddit.com/r/vim/search".toList := by
  decide

/-- C11 (amended): when no earlier rule returned and the referrer left by line 89 has no
`?`, the call returns the string form, without its leading `/` bytes, of the URL with the
scheme cleared, the host replaced by its alias and, on `www.reddit.com`, the view suffix
removed from the path, with `isGroup = false`; that name does not start with `/`; and the
returned pair is the same whatever the field `Scheme` of the URL holds. -/
theorem cleanRefURL_no_query_fallback (ref r : Str) (refURL u : URL)
    (hcont : specialRules ref refURL = .cont r u)
    (hq : stringsIndex r "?".toList = -1) :
    returned (cleanRefURL ref refURL)
      = some (stringsTrimLeft (URL.String (normalURL refURL)) "/".toList, false)
    ∧ (stringsTrimLeft (URL.String (normalURL refURL)) "/".toList).head? ≠ some '/'
    ∧ ∀ s, returned (cleanRefURL ref { refURL with Scheme := s })
        = returned (cleanRefURL ref refURL) := by
  obtain ⟨-, -, hu, -⟩ := specialRules_cont_url _ _ _ _ hcont
  subst hu
  refine ⟨?_, ?_, fun s => cleanRefURL_scheme ref refURL s⟩
  · unfold cleanRefURL
    rw [hcont]
    simp only [genericFallback, hq, ↓reduceIte, returned, Option.map_some']
  · intro h
    exact absurd (stringsTrimLeft_head _ _ _ h) (by decide)

theorem cleanRefURL_no_query_fallback_witness :
    returned (cleanRefURL "https://example.com/a/b".toList
        { Scheme := "https".toList, Host := "example.com".toList, Path := "/a/b".toList })
      = some ("example.com/a/b".toList, false) :=
  (cleanRefURL_no_query_fallback "https://example.com/a/b".toList "example.com/a/b".toList
    { Scheme := "https".toList, Host := "example.com".toList, Path := "/a/b".toList }
    { Host := "example.com".toList, Path := "/a/b".toList } (by decide) (by decide)).1

/-- C12 (counterexample): the referrers `http://` (a URL with a scheme and nothing else)
and `/` (a URL with the path `/`) make `cleanRefURL` return the empty name. -/
theorem cleanRefURL_empty_name :
    returned (cleanRefURL "http://".toList { Scheme := "http".toList }) = some ([], false)
    ∧ returned (cleanRefURL "/".toList { Path := "/".toList }) = some ([], false) := by
  decide

/-- C12 (amended): for a URL with a non-empty host and no opaque part, whenever
`cleanRefURL` returns, the returned name is a non-empty string. -/
theorem cleanRefURL_name_nonempty_of_host (ref : Str) (refURL : URL) (name : Str) (isGroup : Bool)
    (hH : refURL.Host ≠ []) (hO : refURL.Opaque = [])
    (h : returned (cleanRefURL ref refURL) = some (name, isGroup)) : name ≠ [] := by
  obtain ⟨u', h⟩ := returned_eq_some _ _ _ h
  rcases cleanRefURL_cases _ _ _ _ _ h with hs | ⟨r, v, hs, hg⟩
  · exact specialRules_ret_name _ _ _ _ _ hs
  · obtain ⟨-, -, hv, -⟩ := specialRules_cont_url _ _ _ _ hs
    subst hv
    have hH' : (normalURL refURL).Host ≠ [] := aliasHost_ne_nil _ hH
    obtain ⟨c, Y, hc, hY, h1, h2⟩ := genericFallback_of_host r (normalURL refURL) rfl hO hH'
    by_cases hq : stringsIndex r "?".toList = -1
    · obtain ⟨d, Z, hZ, hd⟩ := String_of_host_head (normalURL refURL) rfl hO hH'
      unfold genericFallback at hg
      simp only [hq, ↓reduceIte, hZ, stringsTrimLeft_slashes d Z hd, Option.some.injEq,
        Prod.mk.injEq] at hg
      rw [← hg.1]
      exact List.cons_ne_nil _ _
    · rw [h1 hq] at hg
      simp only [Option.some.injEq, Prod.mk.injEq] at hg
      rw [← hg.1]
      exact List.cons_ne_nil _ _

theorem cleanRefURL_name_nonempty_of_host_witness :
    "example.com/a%20b".toList ≠ [] :=
  cleanRefURL_name_nonempty_of_host "https://example.com/a b?x=1".toList
    { Scheme := "https".toList, Host := "example.com".toList, Path := "/a b".toList,
      RawQuery := "x=1".toList }
    "example.com/a%20b".toList false (by decide) rfl (by decide)

/-- C13 (counterexample): for `https://www.reddit.com/r/golang/new/top` the first call
returns `www.reddit.com/r/golang/new` and leaves the path `/r/golang/new` in the URL object;
a second call with the same string and that object returns `www.reddit.com/r/golang`. -/
theorem cleanRefURL_second_call_differs :
    cleanRefURL "https://www.reddit.com/r/golang/new/top".toList
        { Scheme := "https".toList, Host := "www.reddit.com".toList,
          Path := "/r/golang/new/top".toList }
      = some ("www.reddit.com/r/golang/new".toList, false,
          { Host := "www.reddit.com".toList, Path := "/r/golang/new".toList })
    ∧ returned (cleanRefURL "https://www.reddit.com/r/golang/new/top".toList
        { Host := "www.reddit.com".toList, Path := "/r/golang/new".toList })
      = some ("www.reddit.com/r/golang".toList, false) := by
  decide

/-- C13 (amended): when a call returns `(name, isGroup)` and leaves the URL object `u1`, a
second call with the same referrer string and `u1` returns the same `(name, isGroup)`,
provided that, if the host of `u1` is `www.reddit.com`, the path of `u1` does not end in
`/top`, `/new`, `/search` or `.compact` again. -/
theorem cleanRefURL_second_call (ref : Str) (refURL u1 : URL) (name : Str) (isGroup : Bool)
    (h : cleanRefURL ref refURL = some (name, isGroup, u1))
    (hfix : u1.Host = "www.reddit.com".toList →
      ∀ suf ∈ redditSuffixes, stringsHasSuffix u1.Path suf = false) :
    returned (cleanRefURL ref u1) = some (name, isGroup) := by
  rw [second_call_fixed_point ref refURL u1 name isGroup h hfix]
  rfl

theorem cleanRefURL_second_call_witness :
    returned (cleanRefURL "https://old.reddit.com/r/vim/search?utm_term=a".toList
        { Host := "www.reddit.com".toList, Path := "/r/vim".toList })
      = some ("www.reddit.com/r/vim".toList, false) :=
  cleanRefURL_second_call "https://old.reddit.com/r/vim/search?utm_term=a".toList
    { Scheme := "https".toList, Host := "old.reddit.com".toList,
      Path := "/r/vim/search".toList, RawQuery := "utm_term=a".toList }
    { Host := "www.reddit.com".toList, Path := "/r/vim".toList }
    "www.reddit.com/r/vim".toList false (by decide) (by decide)

/-- C14: in `ListRefsByPath` and in `ListTopRefs` (when the store reports no error), for a
receiver that holds no rows before the call, an effective limit of at least 1 and a store
result of `n` rows with `limit < n <= limit + 1`, the call returns with `More = true` and
`Stats` holding the first `limit` rows of the store result, in the same order, which are
exactly `limit` rows. -/
theorem pagination_more (db : DB) (site : Site) (h : Stats) (path start stop : Str)
    (offset : Int) (hfresh : h.Stats = []) :
    (1 ≤ limitRef site →
      limitRef site < ((db (refsByPathSelect site path start stop offset)).1.length : Int) →
      ((db (refsByPathSelect site path start stop offset)).1.length : Int) ≤ limitRef site + 1 →
      ∃ h' err, ListRefsByPath db site h path start stop offset = some (h', err)
        ∧ h'.More = true
        ∧ h'.Stats = (db (refsByPathSelect site path start stop offset)).1.take
            (limitRef site).toNat
        ∧ (h'.Stats.length : Int) = limitRef site)
    ∧ (1 ≤ limitHchart site →
      (db (topRefsSelect site start stop offset)).2 = none →
      limitHchart site < ((db (topRefsSelect site start stop offset)).1.length : Int) →
      ((db (topRefsSelect site start stop offset)).1.length : Int) ≤ limitHchart site + 1 →
      ∃ h', ListTopRefs db site h start stop offset = some (h', none)
        ∧ h'.More = true
        ∧ h'.Stats = (db (topRefsSelect site start stop offset)).1.take
            (limitHchart site).toNat
        ∧ (h'.Stats.length : Int) = limitHchart site) := by
  constructor
  · intro h1 h2 h3
    refine ⟨Stats.mk true ((db (refsByPathSelect site path start stop offset)).1.take
      (limitRef site).toNat),
      errorsWrap (db (refsByPathSelect site path start stop offset)).2
        "Stats.ListRefsByPath".toList, ?_, rfl, rfl, ?_⟩
    · unfold ListRefsByPath
      simp only [hfresh, List.nil_append]
      rw [trimMore_more _ _ (by omega) h2 h3]
      rfl
    · simp only [List.length_take]
      omega
  · intro h1 he h2 h3
    refine ⟨Stats.mk true ((db (topRefsSelect site start stop offset)).1.take
      (limitHchart site).toNat), ?_, rfl, rfl, ?_⟩
    · unfold ListTopRefs
      simp only [he, hfresh, List.nil_append]
      rw [trimMore_more _ _ (by omega) h2 h3]
      rfl
    · simp only [List.length_take]
      omega

theorem pagination_more_witness :
    ∃ h' err, ListRefsByPath (exampleDB 11) (exampleSite 0 0) { More := false, Stats := [] }
        "/".toList "2020-01-01".toList "2020-01-08".toList 0 = some (h', err)
      ∧ h'.More = true
      ∧ h'.Stats = (exampleRows 11).take 10
      ∧ (h'.Stats.length : Int) = 10 :=
  (pagination_more (exampleDB 11) (exampleSite 0 0) { More := false, Stats := [] }
    "/".toList "2020-01-01".toList "2020-01-08".toList 0 rfl).1
    (by decide) (by decide) (by decide)

/-- C15 (counterexample): with a receiver without rows whose `More` is already `true`, a
store result of 10 rows under the limit 10 (6 rows under the limit 6 in `ListTopRefs`)
leaves `More = true` after the call: the flag is never set back to `false`.  With a
receiver that already holds 3 rows and `More = false`, a store result of 10 rows under the
limit 10 is appended to the 3 rows: the call leaves `More = true` and 12 rows. -/
theorem more_flag_kept_after_short_result :
    ListRefsByPath (exampleDB 10) (exampleSite 10 6) { More := true, Stats := [] }
        "/".toList "2020-01-01".toList "2020-01-08".toList 0
      = some ({ More := true, Stats := exampleRows 10 }, none)
    ∧ ListTopRefs (exampleDB 6) (exampleSite 10 6) { More := true, Stats := [] }
        "2020-01-01".toList "2020-01-08".toList 0
      = some ({ More := true, Stats := exampleRows 6 }, none)
    ∧ ListRefsByPath (exampleDB 10) (exampleSite 10 6)
        { More := false, Stats := exampleRows 3 }
        "/".toList "2020-01-01".toList "2020-01-08".toList 0
      = some ({ More := true, Stats := (exampleRows 3 ++ exampleRows 10).take 12 }, none) := by
  decide

/-- C15 (amended): in both reports, for every site and every prior receiver, the store
result is appended to the rows the receiver holds; when the rows held before together with
the `n` rows of the store result number at most `limit` (for a receiver without rows:
`n <= limit`), the call returns with `Stats` holding the rows held before followed by all
`n` rows unchanged (for a receiver without rows: exactly the `n` rows), and `More` holding
the value it had before the call (`false` for a fresh receiver). -/
theorem pagination_no_more (db : DB) (site : Site) (h : Stats) (path start stop : Str)
    (offset : Int) :
    ((h.Stats.length : Int)
        + ((db (refsByPathSelect site path start stop offset)).1.length : Int)
        ≤ limitRef site →
      ListRefsByPath db site h path start stop offset
        = some ({ More := h.More,
                  Stats := h.Stats ++ (db (refsByPathSelect site path start stop offset)).1 },
            errorsWrap (db (refsByPathSelect site path start stop offset)).2
              "Stats.ListRefsByPath".toList))
    ∧ ((h.Stats.length : Int)
        + ((db (topRefsSelect site start stop offset)).1.length : Int)
        ≤ limitHchart site →
      ListTopRefs db site h start stop offset
        = some ({ More := h.More,
                  Stats := h.Stats ++ (db (topRefsSelect site start stop offset)).1 },
            errorsWrap (db (topRefsSelect site start stop offset)).2
              "Stats.ListAllRefs".toList)) := by
  constructor
  · intro h1
    unfold ListRefsByPath
    simp only []
    rw [trimMore_no_more _ _ (by simp only [List.length_append]; omega)]
    rfl
  · intro h1
    unfold ListTopRefs
    simp only []
    cases he : (db (topRefsSelect site start stop offset)).2 with
    | some e => rfl
    | none =>
      simp only []
      rw [trimMore_no_more _ _ (by simp only [List.length_append]; omega)]
      rfl

theorem pagination_no_more_witness :
    ListRefsByPath (exampleDB 10) (exampleSite 0 0) { More := false, Stats := [] }
        "/".toList "2020-01-01".toList "2020-01-08".toList 0
      = some ({ More := false, Stats := exampleRows 10 }, none) :=
  (pagination_no_more (exampleDB 10) (exampleSite 0 0) { More := false, Stats := [] }
    "/".toList "2020-01-01".toList "2020-01-08".toList 0).1 (by decide)

/-- C16 (counterexample): for a site whose configured limits are `-1`, both reports ask
the store for `limit + 1 = 0` rows. -/
theorem limit_request_zero :
    (refsByPathSelect (exampleSite (-1) (-1)) "/".toList "2020-01-01".toList
        "2020-01-08".toList 0).limit = 0
    ∧ (topRefsSelect (exampleSite (-1) (-1)) "2020-01-01".toList
        "2020-01-08".toList 0).limit = 0 := by
  decide

/-- C16 (amended): the effective limit of `ListRefsByPath` is `Limits.Ref` when that is
non-zero and 10 when it is zero, the effective limit of `ListTopRefs` is `Limits.Hchart`
when non-zero and 6 when zero; both reports ask the store for the effective limit plus one
(in Go `int` arithmetic) at the offset of the caller; for a configured limit that is not
negative and below the largest `int`, that is exactly the limit plus one and at least 1. -/
theorem limit_defaulting (site : Site) (path start stop : Str) (offset : Int) :
    limitRef site = (if site.Settings.Limits.Ref = 0 then 10 else site.Settings.Limits.Ref)
    ∧ limitHchart site
        = (if site.Settings.Limits.Hchart = 0 then 6 else site.Settings.Limits.Hchart)
    ∧ (refsByPathSelect site path start stop offset).limit = wrapInt (limitRef site + 1)
    ∧ (refsByPathSelect site path start stop offset).offset = offset
    ∧ (topRefsSelect site start stop offset).limit = wrapInt (limitHchart site + 1)
    ∧ (topRefsSelect site start stop offset).offset = offset
    ∧ (0 ≤ site.Settings.Limits.Ref → site.Settings.Limits.Ref < 2 ^ 63 - 1 →
        (refsByPathSelect site path start stop offset).limit = limitRef site + 1
          ∧ 1 ≤ (refsByPathSelect site path start stop offset).limit)
    ∧ (0 ≤ site.Settings.Limits.Hchart → site.Settings.Limits.Hchart < 2 ^ 63 - 1 →
        (topRefsSelect site start stop offset).limit = limitHchart site + 1
          ∧ 1 ≤ (topRefsSelect site start stop offset).limit) := by
  refine ⟨rfl, rfl, rfl, rfl, rfl, rfl, ?_, ?_⟩
  · intro h1 h2
    have h3 : 0 ≤ limitRef site ∧ limitRef site < 2 ^ 63 - 1 := by
      unfold limitRef
      split <;> omega
    have h4 : (refsByPathSelect site path start stop offset).limit = limitRef site + 1 :=
      wrapInt_of_range _ (by omega) (by omega)
    exact ⟨h4, by omega⟩
  · intro h1 h2
    have h3 : 0 ≤ limitHchart site ∧ limitHchart site < 2 ^ 63 - 1 := by
      unfold limitHchart
      split <;> omega
    have h4 : (topRefsSelect site start stop offset).limit = limitHchart site + 1 :=
      wrapInt_of_range _ (by omega) (by omega)
    exact ⟨h4, by omega⟩

theorem limit_defaulting_witness :
    (refsByPathSelect (exampleSite 0 0) "/".toList "2020-01-01".toList
        "2020-01-08".toList 20).limit = 11
    ∧ 1 ≤ (refsByPathSelect (exampleSite 0 0) "/".toList "2020-01-01".toList
        "2020-01-08".toList 20).limit :=
  (limit_defaulting (exampleSite 0 0) "/".toList "2020-01-01".toList "2020-01-08".toList 20).2.2.2.2.2.2.1
    (by decide) (by decide)

/-- C17: `ListRefsByPath` asks the store for `order by count_unique desc, ref desc`; for a
receiver that holds no rows before the call, when the store result is in that order (for
the collation `nameLt` of `ref`), every result of the call has its rows sorted by
`count_unique` descending with equal `count_unique` in descending order of name: the trim
step keeps the order.  For a limit that is not negative the call returns. -/
theorem ListRefsByPath_order (nameLt : Str → Str → Prop) (db : DB) (site : Site) (h : Stats)
    (path start stop : Str) (offset : Int)
    (hfresh : h.Stats = [])
    (hstore : List.Pairwise
      (rowsInOrder nameLt (refsByPathSelect site path start stop offset).orderBy)
      (db (refsByPathSelect site path start stop offset)).1) :
    (refsByPathSelect site path start stop offset).orderBy = [Column.countUnique, Column.ref]
    ∧ (∀ h' err, ListRefsByPath db site h path start stop offset = some (h', err) →
        List.Pairwise (fun a b => b.CountUnique < a.CountUnique
          ∨ (a.CountUnique = b.CountUnique ∧ (nameLt b.Name a.Name ∨ a.Name = b.Name)))
          h'.Stats)
    ∧ (0 ≤ limitRef site →
        ∃ h' err, ListRefsByPath db site h path start stop offset = some (h', err)) := by
  refine ⟨rfl, ?_, ?_⟩
  · intro h' err hres
    unfold ListRefsByPath at hres
    simp only [hfresh, List.nil_append, Option.map_eq_some', Prod.mk.injEq] at hres
    obtain ⟨h'', ht, rfl, -⟩ := hres
    obtain ⟨k, hk⟩ := trimMore_take _ _ _ ht
    rw [hk]
    apply pairwise_take
    refine hstore.imp ?_
    intro a b hab
    simp only [refsByPathSelect, rowsInOrder, and_true] at hab
    exact hab
  · intro hl
    obtain ⟨h', ht, -⟩ := trimMore_of_nonneg
      { h with Stats := h.Stats ++ (db (refsByPathSelect site path start stop offset)).1 } _ hl
    refine ⟨h', errorsWrap (db (refsByPathSelect site path start stop offset)).2
      "Stats.ListRefsByPath".toList, ?_⟩
    unfold ListRefsByPath
    simp only [ht, Option.map_some']

theorem ListRefsByPath_order_witness :
    List.Pairwise (fun a b => b.CountUnique < a.CountUnique
      ∨ (a.CountUnique = b.CountUnique ∧ (b.Name < a.Name ∨ a.Name = b.Name)))
      (exampleTieRows.take 2) :=
  (ListRefsByPath_order (fun a b => a < b) (fun _ => (exampleTieRows, none)) (exampleSite 2 0)
    { More := false, Stats := [] } "/".toList "2020-01-01".toList "2020-01-08".toList 0
    rfl (by decide)).2.1 { More := true, Stats := exampleTieRows.take 2 } none (by decide)

/-- C18: whenever `cleanRefURL` returns `(name, isGroup)`, `isGroup` is `true` if and only
if the host is not `link.oreilly.com` and the host after aliasing starts with `www.google.`
or is a key of `groups`; and when `isGroup` is `true` the name is `Google` or a label of
`groups`. -/
theorem cleanRefURL_isGroup_iff (ref : Str) (refURL : URL) (name : Str) (isGroup : Bool)
    (h : returned (cleanRefURL ref refURL) = some (name, isGroup)) :
    (isGroup = true ↔
      (refURL.Host ≠ "link.oreilly.com".toList
        ∧ (stringsHasPrefix (aliasHost refURL.Host) "www.google.".toList = true
          ∨ ∃ g, groups.lookup (aliasHost refURL.Host) = some g)))
    ∧ (isGroup = true → name = "Google".toList ∨ ∃ k, (k, name) ∈ groups) := by
  obtain ⟨u', h⟩ := returned_eq_some _ _ _ h
  have hno : ∀ (n : Str), stringsHasPrefix (aliasHost refURL.Host) "www.google.".toList = false →
      groups.lookup (aliasHost refURL.Host) = none →
      ((false = true ↔
        (refURL.Host ≠ "link.oreilly.com".toList
          ∧ (stringsHasPrefix (aliasHost refURL.Host) "www.google.".toList = true
            ∨ ∃ g, groups.lookup (aliasHost refURL.Host) = some g)))
      ∧ (false = true → n = "Google".toList ∨ ∃ k, (k, n) ∈ groups)) := by
    intro n h5 h6
    refine ⟨⟨fun hh => absurd hh (by decide), ?_⟩, fun hh => absurd hh (by decide)⟩
    rintro ⟨-, h7 | ⟨g, h7⟩⟩
    · rw [h5] at h7; exact absurd h7 (by decide)
    · rw [h6] at h7; exact absurd h7 (by simp)
  rcases cleanRefURL_cases _ _ _ _ _ h with hs | ⟨r, v, hs, hg⟩
  · rcases specialRules_ret _ _ _ _ _ hs with ⟨h1, -, h3, -⟩ | ⟨h1, -, -, h4⟩
    · subst h3
      exact ⟨⟨fun hh => absurd hh (by decide), fun hh => absurd h1 hh.1⟩,
        fun hh => absurd hh (by decide)⟩
    · rcases h4 with ⟨h5, h6, h7⟩ | ⟨h5, h6, h7⟩ | ⟨h5, h6, h7, -⟩
      · subst h6 h7
        exact ⟨⟨fun _ => ⟨h1, Or.inl h5⟩, fun _ => rfl⟩, fun _ => Or.inl rfl⟩
      · subst h7
        exact ⟨⟨fun _ => ⟨h1, Or.inr ⟨_, h6⟩⟩, fun _ => rfl⟩,
          fun _ => Or.inr ⟨_, lookup_mem _ _ _ h6⟩⟩
      · subst h7
        exact hno _ h5 h6
  · have := genericFallback_isGroup _ _ _ _ _ hg
    subst this
    obtain ⟨-, -, -, h5, h6, -⟩ := specialRules_cont_url _ _ _ _ hs
    exact hno _ h5 h6

theorem cleanRefURL_isGroup_iff_witness :
    (true = true ↔
      ("hn.algolia.com".toList ≠ "link.oreilly.com".toList
        ∧ (stringsHasPrefix (aliasHost "hn.algolia.com".toList) "www.google.".toList = true
          ∨ ∃ g, groups.lookup (aliasHost "hn.algolia.com".toList) = some g)))
    ∧ (true = true →
        "Hacker News".toList = "Google".toList ∨ ∃ k, (k, "Hacker News".toList) ∈ groups) :=
  cleanRefURL_isGroup_iff "https://hn.algolia.com/foo".toList
    { Scheme := "https".toList, Host := "hn.algolia.com".toList, Path := "/foo".toList }
    "Hacker News".toList true (by decide)

/-- C19 (the code breaks it): without a host the two fallbacks differ.  The referrer
`/foo?utm_source=x` (path `/foo`, only a tracking parameter) gives the name `oo`, the two
leading bytes of `/foo` being cut off, while `/foo` gives `foo`. -/
theorem cleanRefURL_fallbacks_differ_without_host :
    returned (cleanRefURL "/foo?utm_source=x".toList
        { Path := "/foo".toList, RawQuery := "utm_source=x".toList })
      = some ("oo".toList, false)
    ∧ returned (cleanRefURL "/foo".toList { Path := "/foo".toList })
      = some ("foo".toList, false) := by
  decide

end Goatcounter
